import Mathlib

/-!
Verification of the VPIR (verifiable private information retrieval)
implementation: a shallow embedding of the GF(2^128) field arithmetic
(`lib/field`), the IT single-bit client (`lib/client`), the server answer
engine (`lib/server/server.go`), the Merkle proof serialization
(`lib/database/merkle.go`) and the persisted database layer
(`lib/database`), together with proofs of the specification claims.

Machine integers (`uint64`, `uint32`, `int`) are embedded as `Nat` (or
`Int` where Go's type is signed), with `% 2^64` (resp. `% 2^32`) inserted
exactly where Go truncates.  A byte stream (the BLAKE2b XOF or the PRG)
is embedded as a function `Nat → Nat` giving the byte at each position.
-/

namespace VPIR

/-! ## Field GF(2^128): `lib/field` (source `gf128.go`)

`gcmFieldElement` represents a value in GF(2¹²⁸) stored in big-endian
polynomial order: the coefficient of x⁰ is `low >> 63`, the coefficient
of x¹²⁷ is `high & 1`. -/

structure gcmFieldElement where
  low : Nat
  high : Nat
  deriving DecidableEq, Repr

/-- Well-formedness: both limbs are `uint64` values. -/
def WF (e : gcmFieldElement) : Prop := e.low < 2 ^ 64 ∧ e.high < 2 ^ 64

instance (e : gcmFieldElement) : Decidable (WF e) := by
  unfold WF; infer_instance

/-- Embedding of `field.Zero()`. -/
def feZero : gcmFieldElement := ⟨0, 0⟩

/-- Embedding of `field.One()`: the coefficient of x⁰ is set, `low = 1 << 63`. -/
def feOne : gcmFieldElement := ⟨1 <<< 63, 0⟩

/-- Embedding of `gcmAdd`: addition in a characteristic-2 field is XOR of the limbs. -/
def gcmAdd (x y : gcmFieldElement) : gcmFieldElement :=
  ⟨x.low ^^^ y.low, x.high ^^^ y.high⟩

/-- Embedding of `gcmMultiplyByH`: multiply an element by x (a right shift in
this bit ordering), reducing with `1 + x + x^2 + x^7 + x^128` when the
coefficient of x¹²⁷ was set. -/
def gcmMultiplyByH (x : gcmFieldElement) : gcmFieldElement :=
  let dHigh := (x.high >>> 1) ||| ((x.low <<< 63) % 2 ^ 64)
  let dLow := x.low >>> 1
  if x.high &&& 1 = 1 then ⟨dLow ^^^ 0xe100000000000000, dHigh⟩ else ⟨dLow, dHigh⟩

/-- Embedding of `gcmReductionTable`. -/
def gcmReductionTable : List Nat :=
  [0x0000, 0x1c20, 0x3840, 0x2460, 0x7080, 0x6ca0, 0x48c0, 0x54e0,
   0xe100, 0xfd20, 0xd940, 0xc560, 0x9180, 0x8da0, 0xa9c0, 0xb5e0]

/-- Lookup in `gcmReductionTable` (indices used by the code are < 16). -/
def redTable (i : Nat) : Nat := gcmReductionTable.getD i 0

/-- Embedding of `reverseBits`: reverses the order of the bits of a 4-bit number. -/
def reverseBits (i : Nat) : Nat :=
  let i1 := ((i <<< 2) &&& 0xc) ||| ((i >>> 2) &&& 0x3)
  ((i1 <<< 1) &&& 0xa) ||| ((i1 >>> 1) &&& 0x5)

/-- Embedding of `createProductTable`: the table of 16 multiples of `e`,
indexed by bit-reversed nibble, built by the doubling loop
`for i := 2; i < 16; i += 2`. -/
def createProductTable (e : gcmFieldElement) : Nat → gcmFieldElement :=
  let t0 : Nat → gcmFieldElement := fun _ => feZero
  let t1 := Function.update t0 (reverseBits 1) e
  [2, 4, 6, 8, 10, 12, 14].foldl
    (fun t i =>
      let a := gcmMultiplyByH (t (reverseBits (i / 2)))
      let t' := Function.update t (reverseBits i) a
      Function.update t' (reverseBits (i + 1)) (gcmAdd a e))
    t1

/-- One iteration of the inner loop of `Mul` before the table lookup:
multiply the accumulator `z` by 16 (four right shifts in this bit
ordering) and reduce via `gcmReductionTable`. -/
def mulShiftStep (z : gcmFieldElement) : gcmFieldElement :=
  let msw := z.high &&& 0xf
  let high1 := (z.high >>> 4) ||| ((z.low <<< 60) % 2 ^ 64)
  let low1 := (z.low >>> 4) ^^^ ((redTable msw) <<< 48)
  ⟨low1, high1⟩

/-- The list of the sixteen 4-bit nibbles of a limb, least-significant first,
as consumed by `word >>= 4` in `Mul`. -/
def nibbleList (w : Nat) : List Nat :=
  (List.range 16).map (fun j => (w >>> (4 * j)) &&& 0xf)

/-- Embedding of `field.Mul`: table-driven shift-and-add multiplication.
The outer loop processes `y.high` then `y.low`; each inner step shifts the
accumulator by 4 bits (with reduction) and adds the precomputed multiple
of `e` selected by the next nibble. -/
def Mul (e y : gcmFieldElement) : gcmFieldElement :=
  let productTable := createProductTable e
  (nibbleList y.high ++ nibbleList y.low).foldl
    (fun z m => gcmAdd (mulShiftStep z) (productTable m)) feZero

/-! ### Byte streams and random element sampling -/

/-- Embedding of `binary.BigEndian.Uint64` on eight consecutive bytes of a
stream starting at `off`. -/
def beUint64 (s : Nat → Nat) (off : Nat) : Nat :=
  ((List.range 8).map (fun j => s (off + j) <<< (8 * (7 - j)))).foldl (· ||| ·) 0

/-- Embedding of `field.NewElement` applied to the 16 bytes of the stream `s`
starting at `off`: `low` from bytes 0..7, `high` from bytes 8..15, both
big-endian. -/
def elemOfBytes (s : Nat → Nat) (off : Nat) : gcmFieldElement :=
  ⟨beUint64 s off, beUint64 s (off + 8)⟩

/-- Embedding of `field.RandomVectorXOF`: the vector of `length` elements
produced from the stream `s` starting at offset `off`.  The code allocates
and reads `length*16 + 1` bytes and builds element `i/16` from bytes
`[i, i+16)` for `i = 0, 16, ..., 16*(length-1)`. -/
def RandomVectorXOF (length : Nat) (s : Nat → Nat) (off : Nat) : List gcmFieldElement :=
  (List.range length).map (fun k => elemOfBytes s (off + 16 * k))

/-- Number of bytes `RandomVectorXOF` reads from the XOF
(`bytesLength := length*16 + 1` in the code). -/
def consumedXOF (length : Nat) : Nat := length * 16 + 1

/-- Embedding of `field.RandomVectorPRG`: identical byte consumption and
element construction as `RandomVectorXOF`, but reading from the PRG. -/
def RandomVectorPRG (length : Nat) (s : Nat → Nat) (off : Nat) : List gcmFieldElement :=
  (List.range length).map (fun k => elemOfBytes s (off + 16 * k))

/-- Number of bytes `RandomVectorPRG` reads from the PRG. -/
def consumedPRG (length : Nat) : Nat := length * 16 + 1

/-! ## Query input validation: `lib/client` -/

/-- Embedding of `invalidQueryInputsIT` (file `it.go`):
`index < 0 && numServers < 2`. -/
def invalidQueryInputsIT (index numServers : Int) : Bool :=
  index < 0 && numServers < 2

/-- Embedding of `invalidQueryInputsDPF` (file `it.go`):
`index < 0 && numServers != 2`. -/
def invalidQueryInputsDPF (index numServers : Int) : Bool :=
  index < 0 && numServers != 2

/-- Embedding of `invalidQueryInputs` (file `itsinglegf.go`), with the
database length `dbLength` (the constant `cst.DBLength`) passed explicitly:
`(index < 0 || index > cst.DBLength) && numServers < 1`. -/
def invalidQueryInputs (dbLength index numServers : Int) : Bool :=
  (index < 0 || index > dbLength) && numServers < 1

end VPIR

namespace VPIR

/-! ## First claims -/

/-- C7: evaluation of the query-input validation at a violating input.
With `index = -1` (out of range) and `numServers = 2` (valid for IT), at
least one precondition is violated, so the claim requires the invalid-input
predicate to be `true`; both `invalidQueryInputsIT` and (for any database
length, e.g. 10) `invalidQueryInputs` return `false`, so `Query` does not
fail there: the conjunction `&&` in the code only fires when every
precondition is violated at once. -/
theorem c7_invalid_input_predicate_fails :
    invalidQueryInputsIT (-1) 2 = false ∧
    invalidQueryInputs 10 (-1) 2 = false ∧
    ((-1 : Int) < 0 ∨ 2 < (2 : Int)) := by
  refine ⟨by decide, by decide, Or.inl (by decide)⟩

end VPIR

namespace VPIR

/-! ## C8: randomness consumption of the vector sampler -/

/-- C8 counterexample: the code reads `length*16 + 1` bytes
(`bytesLength := length*16 + 1` followed by `io.ReadFull(xof, bytes[:])`),
so already for `n = 1` the number of bytes pulled from the XOF is 17, not
`16*n = 16` as the claim states. -/
theorem c8_consumption_counterexample : consumedXOF 1 ≠ 16 * 1 := by decide

/-- C8 (amended): `RandomVectorXOF(n, xof)` pulls exactly `16*n + 1` bytes
from the XOF and splits the first `16*n` of them into `n` field elements,
element `k` being built from bytes `[16k, 16k+16)` of the stream
interpreted as big-endian low and high limbs; `RandomVectorPRG` consumes
the same number of bytes and builds the same elements from the same
stream, so the two implementations agree byte for byte. -/
theorem c8_random_vector_amended (n : Nat) (s : Nat → Nat) (off : Nat) :
    consumedXOF n = 16 * n + 1 ∧
    consumedPRG n = consumedXOF n ∧
    RandomVectorPRG n s off = RandomVectorXOF n s off ∧
    (RandomVectorXOF n s off).length = n ∧
    (∀ k, k < n →
      (RandomVectorXOF n s off).getD k feZero = elemOfBytes s (off + 16 * k)) := by
  refine ⟨by simp [consumedXOF, Nat.mul_comm], rfl, rfl, by simp [RandomVectorXOF], ?_⟩
  intro k hk
  simp [RandomVectorXOF, List.getD_eq_getElem?_getD, List.getElem?_map,
    List.getElem?_range, hk]

/-- C8 witness: the amended statement applied at `n = 2`, the identity byte
stream and offset 0, extracting element 1. -/
theorem c8_random_vector_amended_witness :
    (1 < 2) ∧
    (RandomVectorXOF 2 (fun i => i) 0).getD 1 feZero = elemOfBytes (fun i => i) (0 + 16 * 1) :=
  ⟨by decide, (c8_random_vector_amended 2 (fun i => i) 0).2.2.2.2 1 (by decide)⟩

/-! ## C9: Merkle proof serialization (`lib/database/merkle.go`) -/

/-- A Merkle proof as in `merkletree.Proof`: a list of hashes (byte lists)
and a `uint64` leaf index. -/
structure MerkleProof where
  Hashes : List (List Nat)
  Index : Nat
  deriving DecidableEq, Repr

/-- Little-endian byte serialization of a 32-bit value
(`binary.LittleEndian.PutUint32`). -/
def putUint32LE (v : Nat) : List Nat :=
  (List.range 4).map (fun j => (v >>> (8 * j)) % 256)

/-- Little-endian byte serialization of a 64-bit value
(`binary.LittleEndian.PutUint64`). -/
def putUint64LE (v : Nat) : List Nat :=
  (List.range 8).map (fun j => (v >>> (8 * j)) % 256)

/-- Embedding of `binary.LittleEndian.Uint32` reading the first four bytes. -/
def uint32LE (b : List Nat) : Nat :=
  b.getD 0 0 ||| (b.getD 1 0 <<< 8) ||| (b.getD 2 0 <<< 16) ||| (b.getD 3 0 <<< 24)

/-- Embedding of `binary.LittleEndian.Uint64` reading the first eight bytes. -/
def uint64LE (b : List Nat) : Nat :=
  b.getD 0 0 ||| (b.getD 1 0 <<< 8) ||| (b.getD 2 0 <<< 16) ||| (b.getD 3 0 <<< 24) |||
  (b.getD 4 0 <<< 32) ||| (b.getD 5 0 <<< 40) ||| (b.getD 6 0 <<< 48) ||| (b.getD 7 0 <<< 56)

/-- Embedding of `encodeProof`: a `u32` little-endian count of hashes
(`uint32(len(p.Hashes))`), the concatenated hash bytes, then the `u64`
little-endian index. -/
def encodeProof (p : MerkleProof) : List Nat :=
  putUint32LE p.Hashes.length ++ p.Hashes.flatten ++ putUint64LE p.Index

/-- Embedding of `DecodeProof`: read the hash count from the first four
bytes, hash `i` from bytes `[4+32i, 4+32(i+1))`, and the index from the
last eight bytes. -/
def DecodeProof (p : List Nat) : MerkleProof :=
  let numHashes := uint32LE p
  let hashes := (List.range numHashes).map (fun i => ((p.drop (4 + 32 * i)).take 32))
  let index := uint64LE (p.drop (p.length - 8))
  ⟨hashes, index⟩

/-- Recomposition step: appending a byte block above `k` bits by bitwise or
is addition when the low part fits in `k` bits. -/
theorem or_shiftLeft_eq_add {a : Nat} (x k : Nat) (ha : a < 2 ^ k) :
    a ||| (x <<< k) = a + x * 2 ^ k := by
  rw [Nat.shiftLeft_eq, Nat.lor_comm, mul_comm, ← Nat.mul_add_lt_is_or ha, mul_comm]
  omega

theorem uint32LE_putUint32LE (v : Nat) (rest : List Nat) :
    uint32LE (putUint32LE v ++ rest) = v % 2 ^ 32 := by
  have hlen : (putUint32LE v).length = 4 := by simp [putUint32LE]
  have hget : ∀ j, j < 4 → (putUint32LE v ++ rest).getD j 0 = (v >>> (8 * j)) % 256 := by
    intro j hj
    rw [List.getD_append _ _ _ _ (by omega)]
    simp [putUint32LE, List.getD_eq_getElem?_getD, List.getElem?_map, List.getElem?_range, hj]
  unfold uint32LE
  rw [hget 0 (by omega), hget 1 (by omega), hget 2 (by omega), hget 3 (by omega)]
  rw [Nat.shiftRight_eq_div_pow, Nat.shiftRight_eq_div_pow, Nat.shiftRight_eq_div_pow,
    Nat.shiftRight_eq_div_pow]
  rw [or_shiftLeft_eq_add _ 8 (by omega)]
  rw [or_shiftLeft_eq_add _ 16 (by omega)]
  rw [or_shiftLeft_eq_add _ 24 (by omega)]
  norm_num
  omega

theorem uint64LE_putUint64LE (v : Nat) :
    uint64LE (putUint64LE v) = v % 2 ^ 64 := by
  have hget : ∀ j, j < 8 → (putUint64LE v).getD j 0 = (v >>> (8 * j)) % 256 := by
    intro j hj
    simp [putUint64LE, List.getD_eq_getElem?_getD, List.getElem?_map, List.getElem?_range, hj]
  unfold uint64LE
  rw [hget 0 (by omega), hget 1 (by omega), hget 2 (by omega), hget 3 (by omega),
    hget 4 (by omega), hget 5 (by omega), hget 6 (by omega), hget 7 (by omega)]
  simp only [Nat.shiftRight_eq_div_pow]
  rw [or_shiftLeft_eq_add _ 8 (by omega)]
  rw [or_shiftLeft_eq_add _ 16 (by omega)]
  rw [or_shiftLeft_eq_add _ 24 (by omega)]
  rw [or_shiftLeft_eq_add _ 32 (by omega)]
  rw [or_shiftLeft_eq_add _ 40 (by omega)]
  rw [or_shiftLeft_eq_add _ 48 (by omega)]
  rw [or_shiftLeft_eq_add _ 56 (by omega)]
  norm_num
  omega

theorem flatten_length_32 (hs : List (List Nat)) (h32 : ∀ h ∈ hs, h.length = 32) :
    hs.flatten.length = 32 * hs.length := by
  induction hs with
  | nil => simp
  | cons h t ih =>
    simp only [List.flatten_cons, List.length_append, List.length_cons]
    rw [h32 h (List.mem_cons_self h t), ih (fun x hx => h32 x (List.mem_cons_of_mem h hx))]
    ring

theorem flatten_slice (hs : List (List Nat)) (C : List Nat)
    (h32 : ∀ h ∈ hs, h.length = 32) :
    ∀ i, i < hs.length →
      ((hs.flatten ++ C).drop (32 * i)).take 32 = hs.getD i [] := by
  induction hs with
  | nil => intro i hi; simp at hi
  | cons h t ih =>
    intro i hi
    cases i with
    | zero =>
      simp only [Nat.mul_zero, List.drop_zero, List.flatten_cons, List.getD_cons_zero,
        List.append_assoc]
      exact List.take_left' (h32 h (List.mem_cons_self h t))
    | succ j =>
      have hlen : h.length = 32 := h32 h (List.mem_cons_self h t)
      simp only [List.flatten_cons, List.getD_cons_succ, List.append_assoc]
      have hdrop : (h ++ (t.flatten ++ C)).drop (32 * (j + 1)) =
          (t.flatten ++ C).drop (32 * j) := by
        have : 32 * (j + 1) = h.length + 32 * j := by omega
        rw [this, ← List.drop_drop, List.drop_left]
      rw [hdrop]
      exact ih (fun x hx => h32 x (List.mem_cons_of_mem h hx)) j (by simpa using hi)

theorem decoded_hashes_length (hs : List (List Nat)) (idx : Nat) :
    (DecodeProof (encodeProof ⟨hs, idx⟩)).Hashes.length = hs.length % 2 ^ 32 := by
  unfold DecodeProof
  simp only [List.length_map, List.length_range]
  unfold encodeProof
  rw [List.append_assoc, uint32LE_putUint32LE]

theorem c9_roundtrip_counterexample :
    DecodeProof (encodeProof ⟨List.replicate (2 ^ 32) (List.replicate 32 0), 0⟩) ≠
      ⟨List.replicate (2 ^ 32) (List.replicate 32 0), 0⟩ := by
  intro hEq
  have h1 := decoded_hashes_length (List.replicate (2 ^ 32) (List.replicate 32 0)) 0
  have h2 := congrArg (fun q : MerkleProof => q.Hashes.length) hEq
  simp only [List.length_replicate, Nat.mod_self] at h1
  simp only [List.length_replicate] at h2
  rw [h1] at h2
  exact absurd h2 (by norm_num)
/-- C9 (amended): for every proof whose hashes are each exactly 32 bytes
long and that has fewer than `2^32` hashes (the count is stored as a
`u32`) and a `uint64` index, decoding the encoding recovers the proof:
the decoder reads the count from the first four bytes, each hash from its
32-byte slot, and the index from the last eight bytes. -/
theorem c9_roundtrip_amended (p : MerkleProof)
    (h32 : ∀ h ∈ p.Hashes, h.length = 32)
    (hcount : p.Hashes.length < 2 ^ 32)
    (hidx : p.Index < 2 ^ 64) :
    DecodeProof (encodeProof p) = p := by
  obtain ⟨hs, idx⟩ := p
  simp only at h32 hcount hidx
  have hflat : hs.flatten.length = 32 * hs.length := flatten_length_32 hs h32
  have hcnt : uint32LE (encodeProof ⟨hs, idx⟩) = hs.length := by
    unfold encodeProof
    rw [List.append_assoc, uint32LE_putUint32LE]
    exact Nat.mod_eq_of_lt hcount
  have hlen : (encodeProof ⟨hs, idx⟩).length = 4 + 32 * hs.length + 8 := by
    unfold encodeProof
    simp [putUint32LE, putUint64LE, hflat]
    ring
  unfold DecodeProof
  dsimp only
  rw [hcnt, hlen, MerkleProof.mk.injEq]
  constructor
  · -- the hashes are recovered slot by slot
    apply List.ext_getElem
    · simp
    · intro i h1 h2
      simp only [List.getElem_map, List.getElem_range]
      have hi : i < hs.length := h2
      have hdrop : (encodeProof ⟨hs, idx⟩).drop (4 + 32 * i) =
          (hs.flatten ++ putUint64LE idx).drop (32 * i) := by
        unfold encodeProof
        rw [List.append_assoc, ← List.drop_drop, List.drop_left' (by simp [putUint32LE])]
      rw [hdrop, flatten_slice hs (putUint64LE idx) h32 i hi,
        List.getD_eq_getElem?_getD, List.getElem?_eq_getElem hi, Option.getD_some]
  · -- the index is recovered from the last eight bytes
    have hdrop : (encodeProof ⟨hs, idx⟩).drop (4 + 32 * hs.length + 8 - 8) =
        putUint64LE idx := by
      unfold encodeProof
      have h48 : 4 + 32 * hs.length + 8 - 8 =
          (putUint32LE (List.length hs) ++ hs.flatten).length := by
        simp [putUint32LE, hflat]
      rw [List.append_assoc, ← List.append_assoc, h48, List.drop_left]
    rw [hdrop, uint64LE_putUint64LE]
    exact Nat.mod_eq_of_lt hidx

/-- C9 witness: the amended round trip applied to a concrete proof with two
32-byte hashes and index 5. -/
theorem c9_roundtrip_amended_witness :
    DecodeProof (encodeProof ⟨[List.replicate 32 1, List.replicate 32 2], 5⟩) =
      ⟨[List.replicate 32 1, List.replicate 32 2], 5⟩ :=
  c9_roundtrip_amended ⟨[List.replicate 32 1, List.replicate 32 2], 5⟩
    (by intro h hh; simp only [List.mem_cons, List.not_mem_nil, or_false] at hh
        rcases hh with h1 | h1 <;> simp [h1])
    (by norm_num) (by norm_num)

end VPIR

namespace VPIR

/-! ## Basic algebraic facts about the field embedding -/

theorem gcmAdd_comm (x y : gcmFieldElement) : gcmAdd x y = gcmAdd y x := by
  simp [gcmAdd, Nat.xor_comm]

theorem gcmAdd_assoc (x y z : gcmFieldElement) :
    gcmAdd (gcmAdd x y) z = gcmAdd x (gcmAdd y z) := by
  simp [gcmAdd, Nat.xor_assoc]

theorem gcmAdd_zero (x : gcmFieldElement) : gcmAdd x feZero = x := by
  simp [gcmAdd, feZero]

theorem zero_gcmAdd (x : gcmFieldElement) : gcmAdd feZero x = x := by
  simp [gcmAdd, feZero]

theorem gcmAdd_self (x : gcmFieldElement) : gcmAdd x x = feZero := by
  simp [gcmAdd, feZero]

/-- Addition in GF(2^128) makes the element type a commutative monoid; this
lets the reference formulas below be written with finite sums. -/
instance : Zero gcmFieldElement := ⟨feZero⟩

instance : Add gcmFieldElement := ⟨gcmAdd⟩

instance : AddCommMonoid gcmFieldElement where
  add_assoc := gcmAdd_assoc
  zero_add := zero_gcmAdd
  add_zero := gcmAdd_zero
  add_comm := gcmAdd_comm
  nsmul := nsmulRec
  nsmul_zero := fun _ => rfl
  nsmul_succ := fun _ _ => rfl

theorem gcmAdd_eq_add (x y : gcmFieldElement) : gcmAdd x y = x + y := rfl

theorem feZero_eq_zero : feZero = (0 : gcmFieldElement) := rfl

/-- The product table of the zero element is identically zero: slot 8 holds
the element itself and every other slot is obtained from doubling and
adding it. -/
theorem createProductTable_zero : createProductTable feZero = fun _ => feZero := by
  funext m
  simp [createProductTable, Function.update_apply, gcmMultiplyByH, gcmAdd, feZero, reverseBits]

theorem mulShiftStep_zero : mulShiftStep feZero = feZero := by
  simp [mulShiftStep, feZero, redTable, gcmReductionTable]

/-- Multiplication with zero as the table operand yields zero: the
accumulator never leaves zero because every table lookup is zero.  This is
what makes the zero-skipping optimization of `computeMessageAndTag` sound. -/
theorem Mul_zero_left (y : gcmFieldElement) : Mul feZero y = feZero := by
  unfold Mul
  rw [createProductTable_zero]
  generalize nibbleList y.high ++ nibbleList y.low = l
  induction l with
  | nil => rfl
  | cons a t ih =>
    simpa [mulShiftStep_zero, gcmAdd_zero] using ih

end VPIR

namespace VPIR

/-! ## Server answer engine: `lib/server/server.go` -/

/-- Modelled from the spec: the constant `cst.One` of `lib/constants` (that
package is not under `src/`); per the spec the single-bit database stores
the field values 0 and 1, so this is `field.One()`, whose x^0 coefficient
is set. -/
def cstOne : gcmFieldElement := feOne

/-- Modelled from the spec: the constant `cst.Zero` of `lib/constants`, the
zero field element. -/
def cstZero : gcmFieldElement := feZero

/-- Embedding of the single-bit branch of `answer`
(`db.BlockSize == cst.SingleBitBlockLength`): for each row `i`, add `q[j]`
into the accumulator for every column `j` whose entry equals one. -/
def answerSingleBit (rows cols : Nat) (entries : Nat → gcmFieldElement)
    (q : Nat → gcmFieldElement) : List gcmFieldElement :=
  (List.range rows).map (fun i =>
    (List.range cols).foldl
      (fun a j => if entries (i * cols + j) = cstOne then gcmAdd a (q j) else a) feZero)

/-- The body of the inner loop of `computeMessageAndTag` at block `j`,
position `b`: skip zero database elements, otherwise add
`elements[j*bl+b] * q[j*(bl+1)]` into message slot `b` and
`elements[j*bl+b] * q[j*(bl+1)+1+b]` into the running tag. -/
def mtInnerStep (elements : List gcmFieldElement) (blockLen : Nat)
    (q : Nat → gcmFieldElement) (j : Nat) (acc2 : List gcmFieldElement × gcmFieldElement)
    (b : Nat) : List gcmFieldElement × gcmFieldElement :=
  let e := elements.getD (j * blockLen + b) feZero
  if e = feZero then acc2
  else
    (acc2.1.set b (gcmAdd (acc2.1.getD b feZero) (Mul e (q (j * (blockLen + 1))))),
     gcmAdd acc2.2 (Mul e (q (j * (blockLen + 1) + 1 + b))))

/-- Embedding of `computeMessageAndTag`: for each block of `blockLen`
database elements, multiply nonzero elements with the query scalar of the
block (message) and with the per-position tag randomizer (tag), skipping
zero elements; returns the message vector with the tag appended. -/
def computeMessageAndTag (elements : List gcmFieldElement) (blockLen : Nat)
    (q : Nat → gcmFieldElement) : List gcmFieldElement :=
  let res := (List.range (elements.length / blockLen)).foldl (fun acc j =>
      (List.range blockLen).foldl (mtInnerStep elements blockLen q j) acc)
    (List.replicate blockLen feZero, feZero)
  res.1 ++ [res.2]

/-- Reference formula for the message (spec 4.4): coordinate `b` of the
message of a block range is the sum over blocks `j` of
`D[j,b] * q0[j]`. -/
def refMessage (count blockLen : Nat) (elements : List gcmFieldElement)
    (q : Nat → gcmFieldElement) (b : Nat) : gcmFieldElement :=
  ∑ j ∈ Finset.range count, Mul (elements.getD (j * blockLen + b) feZero) (q (j * (blockLen + 1)))

/-- Reference formula for the tag (spec 4.4): the sum over blocks `j` and
positions `b` of `D[j,b] * q1[j,b]`. -/
def refTag (count blockLen : Nat) (elements : List gcmFieldElement)
    (q : Nat → gcmFieldElement) : gcmFieldElement :=
  ∑ j ∈ Finset.range count, ∑ b ∈ Finset.range blockLen,
    Mul (elements.getD (j * blockLen + b) feZero) (q (j * (blockLen + 1) + 1 + b))

/-- Reference formula for the single-bit answer (spec 4.4): row `r` is the
sum of `q[c]` over the columns whose database entry is one. -/
def refSingleBit (rows cols : Nat) (entries : Nat → gcmFieldElement)
    (q : Nat → gcmFieldElement) : List gcmFieldElement :=
  (List.range rows).map (fun r =>
    ∑ c ∈ (Finset.range cols).filter (fun c => entries (r * cols + c) = cstOne), q c)

end VPIR

namespace VPIR

/-! ### C3: the answer equals the reference formulas -/

theorem getD_fe_eq_getElem {l : List gcmFieldElement} {i : Nat} (h : i < l.length) :
    l.getD i feZero = l[i] := by
  rw [List.getD_eq_getElem?_getD, List.getElem?_eq_getElem h, Option.getD_some]

theorem getD_set_self_fe (l : List gcmFieldElement) (i : Nat) (a : gcmFieldElement)
    (h : i < l.length) : (l.set i a).getD i feZero = a := by
  rw [List.getD_eq_getElem?_getD, List.getElem?_set_self h, Option.getD_some]

theorem getD_set_ne_fe (l : List gcmFieldElement) (i j : Nat) (a : gcmFieldElement)
    (h : i ≠ j) : (l.set i a).getD j feZero = l.getD j feZero := by
  rw [List.getD_eq_getElem?_getD, List.getElem?_set_ne h, ← List.getD_eq_getElem?_getD]

/-- A conditional accumulation loop over `range n` computes the filtered sum. -/
theorem foldl_ite_add (n : Nat) (P : Nat → Prop) [DecidablePred P]
    (q : Nat → gcmFieldElement) (z : gcmFieldElement) :
    (List.range n).foldl (fun a c => if P c then gcmAdd a (q c) else a) z =
      z + ∑ c ∈ (Finset.range n).filter (fun c => P c), q c := by
  induction n generalizing z with
  | zero => simp
  | succ m ih =>
    rw [List.range_succ, List.foldl_append, ih, Finset.sum_filter, Finset.sum_filter,
      Finset.sum_range_succ]
    by_cases h : P m
    · simp only [List.foldl_cons, List.foldl_nil, if_pos h, gcmAdd_eq_add]
      rw [add_assoc]
    · simp only [List.foldl_cons, List.foldl_nil, if_neg h]
      rw [add_zero]

/-- Invariant of the inner loop of `computeMessageAndTag` over the block
positions `b < k`: message slot `b` has received its term for block `j`
exactly when `b < k`, and the tag has accumulated the first `k` tag terms.
The zero-skip branch is absorbed because a zero element contributes the
zero product. -/
theorem mtInner_spec (elements : List gcmFieldElement) (bl : Nat)
    (q : Nat → gcmFieldElement) (j : Nat) :
    ∀ k, k ≤ bl → ∀ (v : List gcmFieldElement) (t : gcmFieldElement), v.length = bl →
      (((List.range k).foldl (mtInnerStep elements bl q j) (v, t)).1.length = bl ∧
       (∀ b, b < bl →
         ((List.range k).foldl (mtInnerStep elements bl q j) (v, t)).1.getD b feZero =
           if b < k then
             v.getD b feZero +
               Mul (elements.getD (j * bl + b) feZero) (q (j * (bl + 1)))
           else v.getD b feZero) ∧
       ((List.range k).foldl (mtInnerStep elements bl q j) (v, t)).2 =
         t + ∑ b ∈ Finset.range k,
           Mul (elements.getD (j * bl + b) feZero) (q (j * (bl + 1) + 1 + b))) := by
  intro k
  induction k with
  | zero =>
    intro _ v t hv
    refine ⟨hv, fun b _ => by simp, by simp [feZero_eq_zero]⟩
  | succ k ih =>
    intro hk v t hv
    have hk' : k ≤ bl := by omega
    obtain ⟨ihLen, ihMsg, ihTag⟩ := ih hk' v t hv
    rw [List.range_succ, List.foldl_append, List.foldl_cons, List.foldl_nil]
    set st := (List.range k).foldl (mtInnerStep elements bl q j) (v, t) with hst
    by_cases hcase : elements.getD (j * bl + k) feZero = feZero
    · rw [mtInnerStep, if_pos hcase]
      refine ⟨ihLen, fun b hb => ?_, ?_⟩
      · rw [ihMsg b hb]
        by_cases hbk : b < k
        · rw [if_pos hbk, if_pos (by omega)]
        · rw [if_neg hbk]
          by_cases hbk1 : b < k + 1
          · have hbek : b = k := by omega
            rw [if_pos hbk1, hbek, hcase, Mul_zero_left, feZero_eq_zero, add_zero]
          · rw [if_neg hbk1]
      · rw [ihTag, Finset.sum_range_succ, hcase, Mul_zero_left, feZero_eq_zero, add_zero]
    · rw [mtInnerStep, if_neg hcase]
      refine ⟨by simpa using ihLen, fun b hb => ?_, ?_⟩
      · by_cases hbk : b = k
        · subst hbk
          rw [getD_set_self_fe _ _ _ (by omega), ihMsg b hb, if_neg (by omega),
            if_pos (by omega), gcmAdd_eq_add]
        · rw [getD_set_ne_fe _ _ _ _ (fun hh => hbk hh.symm), ihMsg b hb]
          by_cases hbk1 : b < k
          · rw [if_pos hbk1, if_pos (by omega)]
          · rw [if_neg hbk1, if_neg (by omega)]
      · rw [Finset.sum_range_succ, ← add_assoc, ← ihTag]
        simp only [gcmAdd_eq_add]

/-- Invariant of the outer loop of `computeMessageAndTag` over the first
`m` blocks: the message vector holds the reference message sums over those
blocks and the running tag the reference tag sum. -/
theorem mtOuter_spec (elements : List gcmFieldElement) (bl : Nat)
    (q : Nat → gcmFieldElement) :
    ∀ m,
      (((List.range m).foldl (fun acc j => (List.range bl).foldl (mtInnerStep elements bl q j) acc)
          (List.replicate bl feZero, feZero)).1.length = bl ∧
       (∀ b, b < bl →
         ((List.range m).foldl (fun acc j => (List.range bl).foldl (mtInnerStep elements bl q j) acc)
            (List.replicate bl feZero, feZero)).1.getD b feZero = refMessage m bl elements q b) ∧
       ((List.range m).foldl (fun acc j => (List.range bl).foldl (mtInnerStep elements bl q j) acc)
          (List.replicate bl feZero, feZero)).2 = refTag m bl elements q) := by
  intro m
  induction m with
  | zero =>
    refine ⟨by simp, fun b hb => ?_, by simp [refTag, feZero_eq_zero]⟩
    simp only [List.range_zero, List.foldl_nil]
    rw [List.getD_eq_getElem?_getD,
      List.getElem?_eq_getElem (show b < (List.replicate bl feZero).length by simpa using hb)]
    simp [refMessage, feZero_eq_zero]
  | succ m ih =>
    obtain ⟨ihLen, ihMsg, ihTag⟩ := ih
    rw [List.range_succ, List.foldl_append, List.foldl_cons, List.foldl_nil]
    obtain ⟨jLen, jMsg, jTag⟩ :=
      mtInner_spec elements bl q m bl le_rfl _ _ ihLen
    refine ⟨jLen, fun b hb => ?_, ?_⟩
    · rw [jMsg b hb, if_pos hb, ihMsg b hb, refMessage, refMessage, Finset.sum_range_succ]
    · rw [jTag, ihTag, refTag, refTag, Finset.sum_range_succ]

/-- C3: the server answer equals the reference formulas in both paths.  For
`blockSize = 0` each output row is the sum of `q[c]` over the columns whose
entry is one; for `blockSize >= 1` the per-row output of
`computeMessageAndTag` is the reference message vector with the reference
tag appended, the zero-skip optimization leaving the result unchanged. -/
theorem c3_answer_reference_formulas :
    (∀ rows cols entries q,
      answerSingleBit rows cols entries q = refSingleBit rows cols entries q) ∧
    (∀ elements bl q,
      computeMessageAndTag elements bl q =
        (List.range bl).map (refMessage (elements.length / bl) bl elements q) ++
          [refTag (elements.length / bl) bl elements q]) := by
  constructor
  · intro rows cols entries q
    unfold answerSingleBit refSingleBit
    refine List.map_congr_left (fun r _ => ?_)
    rw [foldl_ite_add cols (fun c => entries (r * cols + c) = cstOne) q feZero,
      feZero_eq_zero, zero_add]
  · intro elements bl q
    unfold computeMessageAndTag
    obtain ⟨hLen, hMsg, hTag⟩ := mtOuter_spec elements bl q (elements.length / bl)
    apply List.ext_getElem
    · simp [hLen]
    · intro i h1 h2
      by_cases hib : i < bl
      · rw [List.getElem_append_left (by omega), List.getElem_append_left (by simpa using hib)]
        rw [List.getElem_map, List.getElem_range, ← getD_fe_eq_getElem (by omega),
          hMsg i hib]
      · have hieq : i = bl := by
          have := h2
          simp only [List.length_append, List.length_map, List.length_range,
            List.length_cons, List.length_nil] at this
          omega
        subst hieq
        rw [List.getElem_concat_length _ _ _ hLen.symm,
          List.getElem_concat_length _ _ _ (by simp)]
        exact hTag

end VPIR

namespace VPIR

/-! ### C6: chunked parallel answer -/

/-- Modelled from the spec: `utils.DivideAndRoundUpToMultiple(n, W, 1)`
(the `utils` package is not under `src/`); per the spec chunk sizes use
ceiling division so the tail is covered. -/
def divideAndRoundUp (n W : Nat) : Nat := (n + W - 1) / W

/-- Embedding of `computeChunkIndices`: shrink the last chunk so it does
not overflow `max`, and scale begin/end by `multiplier`. -/
def computeChunkIndices (ind step multiplier max : Nat) : Nat × Nat × Nat :=
  let step2 := if ind + step > max then max - ind else step
  (step2, ind * multiplier, (ind + step2) * multiplier)

/-- The chunk start offsets produced by the loop
`for j := 0; j < max; j += chunkSize` (the in-loop shrink only affects the
final iteration, so the starts are the multiples of `chunkSize` below
`max`, of which there are `ceil(max / chunkSize)` many). -/
def chunkStarts (max chunkSize : Nat) : List Nat :=
  (List.range ((max + chunkSize - 1) / chunkSize)).map (· * chunkSize)

/-- The columns scanned by the chunk starting at `j`: the interval
`[j, j + step)` with `step` from `computeChunkIndices`. -/
def chunkColumns (n cpc : Nat) : List (List Nat) :=
  (chunkStarts n cpc).map (fun j => List.range' j (computeChunkIndices j cpc 1 n).1)

/-- Per-chunk partial results of the `NumRows == 1` branch of `answer`:
worker `j` runs `computeMessageAndTag` on `db.Entries[begin:end]` against
the query slice `q[j*(bl+1):(j+step)*(bl+1)]`. -/
def chunkResults (db : List gcmFieldElement) (bl cpc n : Nat)
    (q : Nat → gcmFieldElement) : List (List gcmFieldElement) :=
  (chunkStarts n cpc).map (fun j =>
    let t := computeChunkIndices j cpc bl n
    computeMessageAndTag ((db.drop t.2.1).take (t.2.2 - t.2.1)) bl
      (fun u => q (j * (bl + 1) + u)))

/-- The body of `combineColumnResults` for one worker reply:
`for i, elem := range reply { product[i].Add(&product[i], &elem) }`. -/
def addIntoVec (product reply : List gcmFieldElement) : List gcmFieldElement :=
  (List.range reply.length).foldl
    (fun p i => p.set i (gcmAdd (p.getD i feZero) (reply.getD i feZero))) product

/-- Embedding of `combineColumnResults`: sum the worker replies (in
whatever order the channel yields them) into a zero vector of length
`resLen`. -/
def combineColumnResults (resLen : Nat) (replies : List (List gcmFieldElement)) :
    List gcmFieldElement :=
  replies.foldl addIntoVec (List.replicate resLen feZero)

/-- Embedding of `processRows`: compute `computeMessageAndTag` for each
row slice of `bl * numColumns` elements and write the `bl+1` results into
consecutive output slots (modelled as concatenation). -/
def processRows (rows : List gcmFieldElement) (bl numColumns : Nat)
    (q : Nat → gcmFieldElement) : List gcmFieldElement :=
  ((List.range (rows.length / (bl * numColumns))).map (fun i =>
    computeMessageAndTag ((rows.drop (i * (bl * numColumns))).take (bl * numColumns)) bl q)).flatten

/-- The `NumRows > 1` branch of `answer`: each worker handles the row range
`[begin, end)` and writes `processRows` of `db.Entries[begin*cols:end*cols]`
into its disjoint output region (modelled as concatenation of the chunks). -/
def rowChunkResults (db : List gcmFieldElement) (bl cols m rpc : Nat)
    (q : Nat → gcmFieldElement) : List gcmFieldElement :=
  ((chunkStarts m rpc).map (fun j =>
    let t := computeChunkIndices j rpc bl m
    processRows ((db.drop (t.2.1 * cols)).take (t.2.2 * cols - t.2.1 * cols)) bl cols q)).flatten

end VPIR

namespace VPIR

theorem chunkStarts_zero (cpc : Nat) : chunkStarts 0 cpc = [] := by
  unfold chunkStarts
  have h : (0 + cpc - 1) / cpc = 0 := by
    rcases Nat.eq_zero_or_pos cpc with h | h
    · simp [h]
    · exact Nat.div_eq_of_lt (by omega)
  rw [h]
  rfl

theorem chunkStarts_small (n cpc : Nat) (h1 : 1 ≤ n) (h2 : n ≤ cpc) :
    chunkStarts n cpc = [0] := by
  unfold chunkStarts
  have h : (n + cpc - 1) / cpc = 1 := by
    have h0 : 0 < cpc := by omega
    have e1 : n + cpc - 1 = (n - 1) + cpc := by omega
    rw [e1, Nat.add_div_right _ h0, Nat.div_eq_of_lt (by omega)]
  rw [h]
  rw [show List.range 1 = [0] from rfl]
  simp

theorem chunkStarts_step (n cpc : Nat) (h : cpc < n) (h0 : 0 < cpc) :
    chunkStarts n cpc = 0 :: (chunkStarts (n - cpc) cpc).map (· + cpc) := by
  unfold chunkStarts
  have e1 : (n + cpc - 1) / cpc = ((n - cpc) + cpc - 1) / cpc + 1 := by
    have e2 : n + cpc - 1 = ((n - cpc) + cpc - 1) + cpc := by omega
    rw [e2, Nat.add_div_right _ h0]
  rw [e1, List.range_succ_eq_map, List.map_cons, List.map_map, List.map_map]
  congr 1
  · omega
  · apply List.map_congr_left
    intro t _
    simp only [Function.comp_apply, Nat.succ_eq_add_one]
    ring

/-- C6, coverage part: for a positive chunk size the chunk intervals
produced by `computeChunkIndices` cover the columns `0..n-1` exactly once,
in order, the tail chunk being shortened to fit. -/
theorem chunkColumns_cover (cpc : Nat) (h0 : 1 ≤ cpc) :
    ∀ n, (chunkColumns n cpc).flatten = List.range n := by
  intro n
  induction n using Nat.strong_induction_on with
  | _ n ih =>
    rcases Nat.eq_zero_or_pos n with hn | hn
    · subst hn
      simp [chunkColumns, chunkStarts_zero]
    · rcases le_or_lt n cpc with hcase | hcase
      · rw [chunkColumns, chunkStarts_small n cpc hn hcase]
        have hstep : (computeChunkIndices 0 cpc 1 n).1 = n := by
          simp only [computeChunkIndices]
          split <;> omega
        simp only [List.map_cons, List.map_nil, hstep, List.flatten_cons, List.flatten_nil,
          List.append_nil]
        rw [List.range_eq_range']
      · rw [chunkColumns, chunkStarts_step n cpc hcase h0, List.map_cons, List.map_map,
          List.flatten_cons]
        have hstep0 : (computeChunkIndices 0 cpc 1 n).1 = cpc := by
          simp only [computeChunkIndices]
          split <;> omega
        have hfun : ((fun j => List.range' j (computeChunkIndices j cpc 1 n).1) ∘ (· + cpc)) =
            (fun j => (List.range' j (computeChunkIndices j cpc 1 (n - cpc)).1).map (cpc + ·)) := by
          funext j
          simp only [Function.comp_apply, List.map_add_range']
          have : (computeChunkIndices (j + cpc) cpc 1 n).1 =
              (computeChunkIndices j cpc 1 (n - cpc)).1 := by
            simp only [computeChunkIndices]
            split <;> split <;> omega
          rw [this, Nat.add_comm j cpc]
        rw [hstep0, hfun]
        have hrest : ((chunkStarts (n - cpc) cpc).map
              (fun j => (List.range' j (computeChunkIndices j cpc 1 (n - cpc)).1).map (cpc + ·))).flatten =
            ((chunkColumns (n - cpc) cpc).flatten).map (cpc + ·) := by
          rw [chunkColumns, List.map_flatten, List.map_map]
          rfl
        rw [hrest, ih (n - cpc) (by omega), List.range_eq_range', List.map_add_range',
          List.range_eq_range']
        have : List.range' 0 cpc ++ List.range' (cpc + 0) (n - cpc) = List.range' 0 n := by
          have := List.range'_append_1 0 cpc (n - cpc)
          simpa using this.trans (by congr 1; omega)
        simpa using this

end VPIR

namespace VPIR

theorem addIntoVec_aux (p r : List gcmFieldElement) :
    ∀ k, k ≤ r.length → r.length = p.length →
      (((List.range k).foldl
          (fun p2 i => p2.set i (gcmAdd (p2.getD i feZero) (r.getD i feZero))) p).length = p.length ∧
       ∀ b, b < p.length →
         ((List.range k).foldl
            (fun p2 i => p2.set i (gcmAdd (p2.getD i feZero) (r.getD i feZero))) p).getD b feZero =
           if b < k then p.getD b feZero + r.getD b feZero else p.getD b feZero) := by
  intro k
  induction k with
  | zero => intro _ _; exact ⟨rfl, fun b _ => by simp⟩
  | succ k ih =>
    intro hk hr
    obtain ⟨ihLen, ihVal⟩ := ih (by omega) hr
    rw [List.range_succ, List.foldl_append, List.foldl_cons, List.foldl_nil]
    refine ⟨by simpa using ihLen, fun b hb => ?_⟩
    by_cases hbk : b = k
    · subst hbk
      rw [getD_set_self_fe _ _ _ (by omega), ihVal b hb, if_neg (by omega), if_pos (by omega),
        gcmAdd_eq_add]
    · rw [getD_set_ne_fe _ _ _ _ (fun hh => hbk hh.symm), ihVal b hb]
      by_cases hbk1 : b < k
      · rw [if_pos hbk1, if_pos (by omega)]
      · rw [if_neg hbk1, if_neg (by omega)]

theorem addIntoVec_spec (p r : List gcmFieldElement) (h : r.length = p.length) :
    (addIntoVec p r).length = p.length ∧
    ∀ b, b < p.length →
      (addIntoVec p r).getD b feZero = p.getD b feZero + r.getD b feZero := by
  obtain ⟨hLen, hVal⟩ := addIntoVec_aux p r r.length le_rfl h
  exact ⟨hLen, fun b hb => by rw [addIntoVec, hVal b hb, if_pos (by omega)]⟩

theorem combine_foldl_spec (L : Nat) :
    ∀ (replies : List (List gcmFieldElement)) (acc : List gcmFieldElement),
      acc.length = L → (∀ r ∈ replies, r.length = L) →
      ((replies.foldl addIntoVec acc).length = L ∧
       ∀ b, b < L →
         (replies.foldl addIntoVec acc).getD b feZero =
           acc.getD b feZero + (replies.map (fun r => r.getD b feZero)).sum) := by
  intro replies
  induction replies with
  | nil => intro acc hacc _; exact ⟨hacc, fun b _ => by simp [feZero_eq_zero]⟩
  | cons r t ih =>
    intro acc hacc hall
    have hr : r.length = acc.length := by
      rw [hacc]; exact hall r (List.mem_cons_self r t)
    obtain ⟨aLen, aVal⟩ := addIntoVec_spec acc r hr
    obtain ⟨tLen, tVal⟩ := ih (addIntoVec acc r) (by rw [aLen, hacc])
      (fun x hx => hall x (List.mem_cons_of_mem r hx))
    refine ⟨tLen, fun b hb => ?_⟩
    rw [List.foldl_cons, tVal b hb, aVal b (by omega), List.map_cons, List.sum_cons, add_assoc]

theorem combineColumnResults_spec (L : Nat) (replies : List (List gcmFieldElement))
    (h : ∀ r ∈ replies, r.length = L) :
    (combineColumnResults L replies).length = L ∧
    ∀ b, b < L →
      (combineColumnResults L replies).getD b feZero =
        (replies.map (fun r => r.getD b feZero)).sum := by
  obtain ⟨hLen, hVal⟩ := combine_foldl_spec L replies (List.replicate L feZero) (by simp) h
  refine ⟨hLen, fun b hb => ?_⟩
  rw [combineColumnResults, hVal b hb, List.getD_eq_getElem?_getD,
    List.getElem?_eq_getElem (by simpa using hb), List.getElem_replicate]
  simp [feZero_eq_zero]

theorem computeMessageAndTag_length (el : List gcmFieldElement) (bl : Nat)
    (q : Nat → gcmFieldElement) : (computeMessageAndTag el bl q).length = bl + 1 := by
  obtain ⟨hLen, _, _⟩ := mtOuter_spec el bl q (el.length / bl)
  unfold computeMessageAndTag
  simp [hLen]

theorem computeMessageAndTag_getD_msg (el : List gcmFieldElement) (bl : Nat)
    (q : Nat → gcmFieldElement) (b : Nat) (hb : b < bl) :
    (computeMessageAndTag el bl q).getD b feZero = refMessage (el.length / bl) bl el q b := by
  obtain ⟨hLen, hMsg, _⟩ := mtOuter_spec el bl q (el.length / bl)
  unfold computeMessageAndTag
  rw [List.getD_eq_getElem?_getD, List.getElem?_append_left (by simpa [hLen] using hb),
    ← List.getD_eq_getElem?_getD]
  exact hMsg b hb

theorem computeMessageAndTag_getD_tag (el : List gcmFieldElement) (bl : Nat)
    (q : Nat → gcmFieldElement) :
    (computeMessageAndTag el bl q).getD bl feZero = refTag (el.length / bl) bl el q := by
  obtain ⟨hLen, _, hTag⟩ := mtOuter_spec el bl q (el.length / bl)
  unfold computeMessageAndTag
  rw [List.getD_eq_getElem?_getD,
    List.getElem?_eq_getElem (by simp [hLen]),
    List.getElem_concat_length _ _ _ hLen.symm, Option.getD_some]
  exact hTag

end VPIR

namespace VPIR

theorem getD_drop_fe (db : List gcmFieldElement) (a i : Nat) :
    (db.drop a).getD i feZero = db.getD (a + i) feZero := by
  rw [List.getD_eq_getElem?_getD, List.getElem?_drop, ← List.getD_eq_getElem?_getD]

theorem slice_getD_fe (db : List gcmFieldElement) (a m i : Nat) (him : i < m) :
    ((db.drop a).take m).getD i feZero = db.getD (a + i) feZero := by
  rw [List.getD_eq_getElem?_getD, List.getElem?_take_of_lt him, List.getElem?_drop,
    ← List.getD_eq_getElem?_getD]

theorem slice_length_fe (db : List gcmFieldElement) (a m : Nat) (h : a + m ≤ db.length) :
    ((db.drop a).take m).length = m := by
  simp only [List.length_take, List.length_drop]
  omega

theorem computeChunkIndices_parts (ind step mult max : Nat) :
    (computeChunkIndices ind step mult max).2.1 = ind * mult ∧
    (computeChunkIndices ind step mult max).2.2 =
      (ind + (computeChunkIndices ind step mult max).1) * mult := by
  constructor <;> rfl

theorem chunkResults_zero (db : List gcmFieldElement) (bl cpc : Nat)
    (q : Nat → gcmFieldElement) : chunkResults db bl cpc 0 q = [] := by
  simp [chunkResults, chunkStarts_zero]

theorem chunkResults_small (db : List gcmFieldElement) (bl cpc n : Nat)
    (q : Nat → gcmFieldElement) (h1 : 1 ≤ n) (h2 : n ≤ cpc) :
    chunkResults db bl cpc n q =
      [computeMessageAndTag
        ((db.drop ((computeChunkIndices 0 cpc bl n).2.1)).take
          ((computeChunkIndices 0 cpc bl n).2.2 - (computeChunkIndices 0 cpc bl n).2.1)) bl
        (fun u => q (0 * (bl + 1) + u))] := by
  rw [chunkResults, chunkStarts_small n cpc h1 h2]
  rfl

theorem chunkResults_step (db : List gcmFieldElement) (bl cpc n : Nat)
    (q : Nat → gcmFieldElement) (h : cpc < n) (h0 : 0 < cpc) :
    chunkResults db bl cpc n q =
      computeMessageAndTag ((db.drop (0 * bl)).take ((0 + cpc) * bl - 0 * bl)) bl
          (fun u => q (0 * (bl + 1) + u)) ::
        chunkResults (db.drop (cpc * bl)) bl cpc (n - cpc) (fun t => q (cpc * (bl + 1) + t)) := by
  rw [chunkResults, chunkStarts_step n cpc h h0, List.map_cons, List.map_map]
  congr 1
  · show (let t := computeChunkIndices 0 cpc bl n
      computeMessageAndTag ((db.drop t.2.1).take (t.2.2 - t.2.1)) bl
        (fun u => q (0 * (bl + 1) + u))) = _
    have hstep : computeChunkIndices 0 cpc bl n = (cpc, 0 * bl, (0 + cpc) * bl) := by
      simp only [computeChunkIndices]
      rw [if_neg (by omega)]
    rw [hstep]
  · apply List.map_congr_left
    intro j _
    dsimp only [Function.comp_apply]
    have hstep : computeChunkIndices (j + cpc) cpc bl n =
        ((computeChunkIndices j cpc bl (n - cpc)).1,
         (j + cpc) * bl,
         ((j + cpc) + (computeChunkIndices j cpc bl (n - cpc)).1) * bl) := by
      simp only [computeChunkIndices]
      split <;> split <;> simp_all <;> omega
    have hdrop : db.drop ((j + cpc) * bl) = (db.drop (cpc * bl)).drop (j * bl) := by
      rw [List.drop_drop]
      congr 1
      ring
    have htake : ((j + cpc) + (computeChunkIndices j cpc bl (n - cpc)).1) * bl - (j + cpc) * bl =
        (j + (computeChunkIndices j cpc bl (n - cpc)).1) * bl - j * bl := by
      generalize (computeChunkIndices j cpc bl (n - cpc)).1 = s
      rw [Nat.add_mul, Nat.add_mul, Nat.add_mul]
      omega
    have hq : (fun u => q ((j + cpc) * (bl + 1) + u)) =
        (fun u => q (cpc * (bl + 1) + (j * (bl + 1) + u))) := by
      funext u
      congr 1
      ring
    rw [hstep, hdrop, htake, hq]
    obtain ⟨hp1, hp2⟩ := computeChunkIndices_parts j cpc bl (n - cpc)
    rw [hp1, hp2]

end VPIR

namespace VPIR

/-- Summing the per-chunk partial results of the column-partitioned path
(in chunk order) gives the same component values as the sequential
`computeMessageAndTag` over the whole row. -/
theorem chunkResults_getD_sum (bl cpc : Nat) (hbl : 1 ≤ bl) (hcpc : 1 ≤ cpc) :
    ∀ n (db : List gcmFieldElement) (q : Nat → gcmFieldElement) (b : Nat),
      db.length = n * bl → b ≤ bl →
      ((chunkResults db bl cpc n q).map (fun r => r.getD b feZero)).sum =
        (computeMessageAndTag db bl q).getD b feZero := by
  intro n
  induction n using Nat.strong_induction_on with
  | _ n ih =>
    intro db q b hdb hble
    have hcount : db.length / bl = n := by
      rw [hdb]; exact Nat.mul_div_cancel _ (by omega)
    rcases Nat.eq_zero_or_pos n with hn | hn
    · subst hn
      rw [chunkResults_zero]
      simp only [List.map_nil, List.sum_nil]
      rcases lt_or_eq_of_le hble with hb | hb
      · rw [computeMessageAndTag_getD_msg db bl q b hb, hcount]
        simp [refMessage, feZero_eq_zero]
      · rw [hb, computeMessageAndTag_getD_tag db bl q, hcount]
        simp [refTag, feZero_eq_zero]
    · rcases le_or_lt n cpc with hcase | hcase
      · -- a single chunk covering all n columns
        rw [chunkResults_small db bl cpc n q hn hcase]
        have hcci : computeChunkIndices 0 cpc bl n = (n, 0 * bl, (0 + n) * bl) := by
          simp only [computeChunkIndices]
          split
          · norm_num
          · have he : cpc = n := by omega
            simp [he]
        rw [hcci]
        simp only [List.map_cons, List.map_nil, List.sum_cons, List.sum_nil, add_zero]
        have hslice : (((0 * bl, (0 + n) * bl) : Nat × Nat).1, ((0 * bl, (0 + n) * bl) : Nat × Nat).2) = ((0 : Nat), n * bl) := by
          norm_num
        have hslice2 : (db.drop (0 * bl)).take ((0 + n) * bl - 0 * bl) = db := by
          simp only [Nat.zero_mul, Nat.zero_add, List.drop_zero, Nat.sub_zero]
          rw [← hdb, List.take_length]
        rw [hslice2]
        rcases lt_or_eq_of_le hble with hb | hb
        · rw [computeMessageAndTag_getD_msg db bl _ b hb,
            computeMessageAndTag_getD_msg db bl q b hb]
          unfold refMessage
          apply Finset.sum_congr rfl
          intro j _
          norm_num
        · rw [hb, computeMessageAndTag_getD_tag db bl _, computeMessageAndTag_getD_tag db bl q]
          unfold refTag
          apply Finset.sum_congr rfl
          intro j _
          apply Finset.sum_congr rfl
          intro b2 _
          norm_num
      · -- first chunk of cpc columns, then the recursive tail
        rw [chunkResults_step db bl cpc n q hcase (by omega)]
        simp only [List.map_cons, List.sum_cons]
        have hdb2 : (db.drop (cpc * bl)).length = (n - cpc) * bl := by
          rw [List.length_drop, hdb, ← Nat.sub_mul]
        rw [ih (n - cpc) (by omega) (db.drop (cpc * bl)) _ b hdb2 hble]
        have hcount2 : (db.drop (cpc * bl)).length / bl = n - cpc := by
          rw [hdb2]; exact Nat.mul_div_cancel _ (by omega)
        have hheadlen : ((db.drop (0 * bl)).take ((0 + cpc) * bl - 0 * bl)).length = cpc * bl := by
          simp only [Nat.zero_mul, Nat.zero_add, List.drop_zero, Nat.sub_zero]
          rw [List.length_take, hdb]
          exact min_eq_left (Nat.mul_le_mul_right _ (by omega))
        have hheadcount : ((db.drop (0 * bl)).take ((0 + cpc) * bl - 0 * bl)).length / bl = cpc := by
          rw [hheadlen]; exact Nat.mul_div_cancel _ (by omega)
        have hidx : ∀ j b2, j < cpc → b2 < bl → j * bl + b2 < (0 + cpc) * bl - 0 * bl := by
          intro j b2 hj hb2
          simp only [Nat.zero_mul, Nat.zero_add, Nat.sub_zero]
          have h1 : j * bl + b2 < (j + 1) * bl := by
            rw [Nat.add_mul, one_mul]; omega
          have h2 : (j + 1) * bl ≤ cpc * bl := Nat.mul_le_mul_right _ (by omega)
          omega
        rcases lt_or_eq_of_le hble with hb | hb
        · rw [computeMessageAndTag_getD_msg _ _ _ b hb, hheadcount,
            computeMessageAndTag_getD_msg _ _ _ b hb, hcount2,
            computeMessageAndTag_getD_msg _ _ _ b hb, hcount]
          have hA : refMessage cpc bl ((db.drop (0 * bl)).take ((0 + cpc) * bl - 0 * bl))
              (fun u => q (0 * (bl + 1) + u)) b =
              ∑ j ∈ Finset.range cpc,
                Mul (db.getD (j * bl + b) feZero) (q (j * (bl + 1))) := by
            unfold refMessage
            apply Finset.sum_congr rfl
            intro j hj
            rw [slice_getD_fe db (0 * bl) _ _ (hidx j b (Finset.mem_range.mp hj) hb)]
            norm_num
          have hB : refMessage (n - cpc) bl (db.drop (cpc * bl))
              (fun t => q (cpc * (bl + 1) + t)) b =
              ∑ j ∈ Finset.range (n - cpc),
                Mul (db.getD ((cpc + j) * bl + b) feZero) (q ((cpc + j) * (bl + 1))) := by
            unfold refMessage
            apply Finset.sum_congr rfl
            intro j _
            rw [getD_drop_fe]
            congr 2
            · ring
            · ring
          rw [hA, hB]
          have hC : ∑ j ∈ Finset.range (n - cpc),
              Mul (db.getD ((cpc + j) * bl + b) feZero) (q ((cpc + j) * (bl + 1))) =
              ∑ v ∈ Finset.Ico cpc n,
                Mul (db.getD (v * bl + b) feZero) (q (v * (bl + 1))) := by
            rw [Finset.sum_Ico_eq_sum_range]
          rw [hC, refMessage, Finset.range_eq_Ico,
            ← Finset.sum_Ico_consecutive _ (Nat.zero_le cpc) (le_of_lt hcase)]
        · rw [hb, computeMessageAndTag_getD_tag, hheadcount,
            computeMessageAndTag_getD_tag, hcount2,
            computeMessageAndTag_getD_tag, hcount]
          have hA : refTag cpc bl ((db.drop (0 * bl)).take ((0 + cpc) * bl - 0 * bl))
              (fun u => q (0 * (bl + 1) + u)) =
              ∑ j ∈ Finset.range cpc, ∑ b2 ∈ Finset.range bl,
                Mul (db.getD (j * bl + b2) feZero) (q (j * (bl + 1) + 1 + b2)) := by
            unfold refTag
            apply Finset.sum_congr rfl
            intro j hj
            apply Finset.sum_congr rfl
            intro b2 hb2
            rw [slice_getD_fe db (0 * bl) _ _
              (hidx j b2 (Finset.mem_range.mp hj) (Finset.mem_range.mp hb2))]
            norm_num
          have hB : refTag (n - cpc) bl (db.drop (cpc * bl))
              (fun t => q (cpc * (bl + 1) + t)) =
              ∑ j ∈ Finset.range (n - cpc), ∑ b2 ∈ Finset.range bl,
                Mul (db.getD ((cpc + j) * bl + b2) feZero) (q ((cpc + j) * (bl + 1) + 1 + b2)) := by
            unfold refTag
            apply Finset.sum_congr rfl
            intro j _
            apply Finset.sum_congr rfl
            intro b2 _
            rw [getD_drop_fe]
            congr 2
            · ring
            · ring
          rw [hA, hB]
          have hC : ∑ j ∈ Finset.range (n - cpc), ∑ b2 ∈ Finset.range bl,
              Mul (db.getD ((cpc + j) * bl + b2) feZero) (q ((cpc + j) * (bl + 1) + 1 + b2)) =
              ∑ v ∈ Finset.Ico cpc n, ∑ b2 ∈ Finset.range bl,
                Mul (db.getD (v * bl + b2) feZero) (q (v * (bl + 1) + 1 + b2)) := by
            rw [Finset.sum_Ico_eq_sum_range]
          rw [hC, refTag, Finset.range_eq_Ico,
            ← Finset.sum_Ico_consecutive _ (Nat.zero_le cpc) (le_of_lt hcase)]

end VPIR

namespace VPIR

theorem processRows_split (db : List gcmFieldElement) (bl cols k m : Nat)
    (q : Nat → gcmFieldElement) (hL : 1 ≤ bl * cols) (hdb : db.length = m * (bl * cols))
    (hk : k ≤ m) :
    processRows db bl cols q =
      processRows (db.take (k * (bl * cols))) bl cols q ++
        processRows (db.drop (k * (bl * cols))) bl cols q := by
  have hcount : db.length / (bl * cols) = m := by
    rw [hdb]; exact Nat.mul_div_cancel _ (by omega)
  have htlen : (db.take (k * (bl * cols))).length = k * (bl * cols) := by
    rw [List.length_take, hdb]
    exact min_eq_left (Nat.mul_le_mul_right _ hk)
  have hdlen : (db.drop (k * (bl * cols))).length = (m - k) * (bl * cols) := by
    rw [List.length_drop, hdb, ← Nat.sub_mul]
  have htcount : (db.take (k * (bl * cols))).length / (bl * cols) = k := by
    rw [htlen]; exact Nat.mul_div_cancel _ (by omega)
  have hdcount : (db.drop (k * (bl * cols))).length / (bl * cols) = m - k := by
    rw [hdlen]; exact Nat.mul_div_cancel _ (by omega)
  unfold processRows
  rw [hcount, htcount, hdcount]
  conv_lhs => rw [show m = k + (m - k) by omega]
  rw [List.range_add, List.map_append, List.flatten_append, List.map_map]
  congr 2
  · -- the first k row slices agree with the slices of the prefix
    apply List.map_congr_left
    intro i hi
    have hik : i < k := List.mem_range.mp hi
    have hbound : i * (bl * cols) + (bl * cols) ≤ k * (bl * cols) := by
      have h1 : (i + 1) * (bl * cols) ≤ k * (bl * cols) := Nat.mul_le_mul_right _ (by omega)
      rw [Nat.add_mul, one_mul] at h1
      omega
    congr 1
    rw [List.drop_take, List.take_take]
    congr 1
    omega
  · -- the remaining row slices agree with the slices of the suffix
    apply List.map_congr_left
    intro i _
    simp only [Function.comp_apply]
    congr 2
    rw [List.drop_drop]
    congr 1
    rw [Nat.add_mul]

theorem rowChunkResults_zero (db : List gcmFieldElement) (bl cols rpc : Nat)
    (q : Nat → gcmFieldElement) : rowChunkResults db bl cols 0 rpc q = [] := by
  simp [rowChunkResults, chunkStarts_zero]

/-- The row-partitioned parallel path writes the same output as the
sequential row scan: the concatenation of the per-chunk `processRows`
results over the ceiling-division row chunks equals `processRows` of the
whole database. -/
theorem rowChunkResults_eq (bl cols rpc : Nat) (hbl : 1 <= bl) (hcols : 1 <= cols)
    (hrpc : 1 <= rpc) :
    forall m (db : List gcmFieldElement) (q : Nat -> gcmFieldElement),
      db.length = m * (bl * cols) ->
      rowChunkResults db bl cols m rpc q = processRows db bl cols q := by
  intro m
  induction m using Nat.strong_induction_on with
  | _ m ih =>
    intro db q hdb
    rcases Nat.eq_zero_or_pos m with hm | hm
    · subst hm
      rw [rowChunkResults_zero]
      have hdb0 : db = [] := by
        have := hdb
        simp only [Nat.zero_mul] at this
        exact List.eq_nil_of_length_eq_zero this
      subst hdb0
      simp [processRows]
    · rcases le_or_lt m rpc with hcase | hcase
      · -- one chunk covering all rows
        rw [rowChunkResults, chunkStarts_small m rpc hm hcase]
        have hcci : computeChunkIndices 0 rpc bl m = (m, 0 * bl, (0 + m) * bl) := by
          simp only [computeChunkIndices]
          split
          · norm_num
          · have he : rpc = m := by omega
            simp [he]
        simp only [List.map_cons, List.map_nil, List.flatten_cons, List.flatten_nil,
          List.append_nil, hcci]
        have hslice : (db.drop (0 * bl * cols)).take ((0 + m) * bl * cols - 0 * bl * cols) = db := by
          simp only [Nat.zero_mul, Nat.zero_add, List.drop_zero, Nat.sub_zero]
          have he2 : m * bl * cols = db.length := by rw [hdb]; ring
          rw [he2, List.take_length]
        rw [hslice]
      · -- first chunk of rpc rows, then the recursive tail
        rw [rowChunkResults, chunkStarts_step m rpc hcase (by omega), List.map_cons,
          List.map_map, List.flatten_cons]
        have hcci : computeChunkIndices 0 rpc bl m = (rpc, 0 * bl, (0 + rpc) * bl) := by
          simp only [computeChunkIndices]
          rw [if_neg (by omega)]
        have htail : List.map ((fun j =>
              let t := computeChunkIndices j rpc bl m
              processRows ((db.drop (t.2.1 * cols)).take (t.2.2 * cols - t.2.1 * cols)) bl cols q) ∘
                (· + rpc)) (chunkStarts (m - rpc) rpc) =
            List.map (fun j =>
              let t := computeChunkIndices j rpc bl (m - rpc)
              processRows (((db.drop (rpc * (bl * cols))).drop (t.2.1 * cols)).take
                (t.2.2 * cols - t.2.1 * cols)) bl cols q) (chunkStarts (m - rpc) rpc) := by
          apply List.map_congr_left
          intro j _
          dsimp only [Function.comp_apply]
          have hstep : computeChunkIndices (j + rpc) rpc bl m =
              ((computeChunkIndices j rpc bl (m - rpc)).1,
               (j + rpc) * bl,
               ((j + rpc) + (computeChunkIndices j rpc bl (m - rpc)).1) * bl) := by
            simp only [computeChunkIndices]
            split <;> split <;> simp_all <;> omega
          rw [hstep]
          dsimp only
          obtain ⟨hp1, hp2⟩ := computeChunkIndices_parts j rpc bl (m - rpc)
          rw [hp1, hp2]
          have hd : (j + rpc) * bl * cols = rpc * (bl * cols) + j * bl * cols := by ring
          have ht : ((j + rpc) + (computeChunkIndices j rpc bl (m - rpc)).1) * bl * cols -
              (j + rpc) * bl * cols =
              (j + (computeChunkIndices j rpc bl (m - rpc)).1) * bl * cols - j * bl * cols := by
            generalize (computeChunkIndices j rpc bl (m - rpc)).1 = s
            have e1 : ((j + rpc) + s) * bl * cols = (j + rpc) * bl * cols + s * bl * cols := by
              ring
            have e2 : (j + s) * bl * cols = j * bl * cols + s * bl * cols := by ring
            omega
          rw [ht, hd, ← List.drop_drop]
        rw [htail]
        have hrec : (List.map (fun j =>
              let t := computeChunkIndices j rpc bl (m - rpc)
              processRows (((db.drop (rpc * (bl * cols))).drop (t.2.1 * cols)).take
                (t.2.2 * cols - t.2.1 * cols)) bl cols q) (chunkStarts (m - rpc) rpc)).flatten =
            rowChunkResults (db.drop (rpc * (bl * cols))) bl cols (m - rpc) rpc q := rfl
        rw [hrec, ih (m - rpc) (by omega) _ q (by rw [List.length_drop, hdb, ← Nat.sub_mul])]
        have hsplit := processRows_split db bl cols rpc m q (by
          have := Nat.mul_le_mul hbl hcols
          simpa using this) hdb (le_of_lt hcase)
        have hslice0 : (fun t : Nat × Nat × Nat =>
            processRows ((db.drop (t.2.1 * cols)).take (t.2.2 * cols - t.2.1 * cols)) bl cols q)
              (computeChunkIndices 0 rpc bl m) =
            processRows (db.take (rpc * (bl * cols))) bl cols q := by
          rw [hcci]
          dsimp only
          congr 1
          simp only [Nat.zero_mul, Nat.zero_add, List.drop_zero, Nat.sub_zero]
          congr 1
          ring
        have hslice0' : (let t := computeChunkIndices 0 rpc bl m
            processRows ((db.drop (t.2.1 * cols)).take (t.2.2 * cols - t.2.1 * cols)) bl cols q) =
            processRows (db.take (rpc * (bl * cols))) bl cols q := hslice0
        rw [hslice0', ← hsplit]

end VPIR

namespace VPIR

/-- C6: chunked-parallel answer equals the unchunked computation.  For
every worker count `W >= 1`: the ceiling-division chunks obtained through
`computeChunkIndices` cover every column (respectively row) index exactly
once, the tail chunk possibly shorter; summing the per-chunk
message-and-tag partial results of the column-partitioned path in any
arrival order yields the sequential `computeMessageAndTag` of the whole
row; and the row-partitioned path concatenates to the sequential row
scan. -/
theorem c6_chunked_answer_equivalence (W : Nat) (hW : 1 ≤ W) :
    (∀ n, (chunkColumns n (divideAndRoundUp n W)).flatten = List.range n) ∧
    (∀ n bl (db : List gcmFieldElement) (q : Nat → gcmFieldElement)
        (replies : List (List gcmFieldElement)),
      1 ≤ bl → db.length = n * bl →
      replies.Perm (chunkResults db bl (divideAndRoundUp n W) n q) →
      combineColumnResults (bl + 1) replies = computeMessageAndTag db bl q) ∧
    (∀ m cols bl (db : List gcmFieldElement) (q : Nat → gcmFieldElement),
      1 ≤ bl → 1 ≤ cols → db.length = m * (bl * cols) →
      rowChunkResults db bl cols m (divideAndRoundUp m W) q = processRows db bl cols q) := by
  have hcpc : ∀ n, 1 ≤ n → 1 ≤ divideAndRoundUp n W := by
    intro n hn
    unfold divideAndRoundUp
    rw [Nat.le_div_iff_mul_le (by omega)]
    omega
  refine ⟨fun n => ?_, fun n bl db q replies hbl hdb hperm => ?_, fun m cols bl db q hbl hcols hdb => ?_⟩
  · rcases Nat.eq_zero_or_pos n with hn | hn
    · subst hn
      rw [chunkColumns, chunkStarts_zero]
      rfl
    · exact chunkColumns_cover (divideAndRoundUp n W) (hcpc n hn) n
  · rcases Nat.eq_zero_or_pos n with hn | hn
    · subst hn
      rw [chunkResults_zero] at hperm
      rw [hperm.eq_nil]
      have hdb0 : db = [] := by
        have := hdb
        simp only [Nat.zero_mul] at this
        exact List.eq_nil_of_length_eq_zero this
      subst hdb0
      show List.replicate (bl + 1) feZero = _
      rw [computeMessageAndTag]
      simp only [List.length_nil, Nat.zero_div, List.range_zero, List.foldl_nil]
      rw [List.replicate_succ']
    · have hcpc1 := hcpc n hn
      have hlenchunks : ∀ r ∈ chunkResults db bl (divideAndRoundUp n W) n q, r.length = bl + 1 := by
        intro r hr
        rw [chunkResults] at hr
        obtain ⟨j, _, hj⟩ := List.mem_map.mp hr
        rw [← hj]
        exact computeMessageAndTag_length _ _ _
      have hlenrep : ∀ r ∈ replies, r.length = bl + 1 := by
        intro r hr
        exact hlenchunks r (hperm.mem_iff.mp hr)
      obtain ⟨cLen, cVal⟩ := combineColumnResults_spec (bl + 1) replies hlenrep
      apply List.ext_getElem
      · rw [cLen, computeMessageAndTag_length]
      · intro i h1 h2
        have hi : i < bl + 1 := by rwa [cLen] at h1
        rw [← getD_fe_eq_getElem h1, ← getD_fe_eq_getElem h2, cVal i hi]
        have hpm : (replies.map (fun r => r.getD i feZero)).sum =
            ((chunkResults db bl (divideAndRoundUp n W) n q).map (fun r => r.getD i feZero)).sum :=
          (hperm.map _).sum_eq
        rw [hpm]
        exact chunkResults_getD_sum bl (divideAndRoundUp n W) hbl hcpc1 n db q i hdb (by omega)
  · rcases Nat.eq_zero_or_pos m with hm | hm
    · subst hm
      rw [rowChunkResults_zero]
      have hdb0 : db = [] := by
        have := hdb
        simp only [Nat.zero_mul] at this
        exact List.eq_nil_of_length_eq_zero this
      subst hdb0
      simp [processRows]
    · exact rowChunkResults_eq bl cols (divideAndRoundUp m W) hbl hcols (hcpc m hm) m db q hdb

/-- C6 witness: the equivalence applied with two workers to a concrete
two-column database with one-element blocks, the replies being the chunk
results themselves. -/
theorem c6_chunked_answer_equivalence_witness :
    combineColumnResults 2
        (chunkResults [feOne, ⟨3, 5⟩] 1 (divideAndRoundUp 2 2) 2 (fun i => ⟨i, i⟩)) =
      computeMessageAndTag [feOne, ⟨3, 5⟩] 1 (fun i => ⟨i, i⟩) :=
  (c6_chunked_answer_equivalence 2 (by decide)).2.1 2 1 [feOne, ⟨3, 5⟩] (fun i => ⟨i, i⟩) _
    (by decide) (by decide) (List.Perm.refl _)

end VPIR

namespace VPIR

/-! ## IT single-bit client: `lib/client` (file `itsinglegf.go`) -/

/-- Embedding of `ITSingleGF.secretSharing`.  For each position `i` the
code assigns the SAME element `randomElements[i]` to every one of the
first `numServers-1` share vectors, accumulates it `numServers-1` times
into `sum`, and sets the last share to `eialpha[i] + sum`, where
`eialpha` is the plaintext query vector with `alpha` at position `ix`.
The random elements are drawn by one `RandomVectorXOF(dbLength)` call,
which follows the 16 bytes consumed for `alpha` (offset 16 in the
stream). -/
def secretSharing (s : Nat → Nat) (ix dbLength : Nat) (alpha : gcmFieldElement)
    (numServers : Nat) : List (List gcmFieldElement) :=
  (List.range numServers).map (fun k =>
    (List.range dbLength).map (fun i =>
      let rand := (RandomVectorXOF dbLength s 16).getD i feZero
      if k < numServers - 1 then rand
      else
        gcmAdd (if i = ix then alpha else feZero)
          ((List.range (numServers - 1)).foldl (fun acc _ => gcmAdd acc rand) feZero)))

/-- Embedding of `ITSingleGF.Reconstruct`: sum the answers componentwise;
reject as soon as some component is neither `alpha` nor zero; otherwise
decide from component `iy` (matrix mode) or 0 (vector mode) between the
constants one and zero. -/
def Reconstruct (rebalanced : Bool) (iy : Nat) (alpha : gcmFieldElement)
    (answers : List (List gcmFieldElement)) : Option gcmFieldElement :=
  let answersLen := (answers.headD []).length
  let sum := fun i => answers.foldl (fun acc a => gcmAdd acc (a.getD i feZero)) feZero
  if (List.range answersLen).any (fun i => !(sum i == alpha) && !(sum i == feZero)) then
    none
  else
    let i := if rebalanced then iy else 0
    if sum i == alpha then some cstOne
    else if sum i == cstZero then some cstZero
    else none

/-- Embedding of `ITSingleGF.Query` composed with honest servers and
`Reconstruct`: the client samples `alpha` from the first 16 stream bytes,
derives `(ix, iy)` from the index (vector layout, or matrix layout with
side `sqrt(dbLength)`), secret-shares the plaintext query, each server
answers honestly on the single-bit database `entries` of shape
`rows x cols`, and the client reconstructs. -/
def ITSingleGFRun (s : Nat → Nat) (rebalanced : Bool) (index dbLength numServers : Nat)
    (rows cols : Nat) (entries : Nat → gcmFieldElement) : Option gcmFieldElement :=
  let alpha := elemOfBytes s 0
  let sqrtLen := Nat.sqrt dbLength
  let ix := if rebalanced then index % sqrtLen else index
  let iy := if rebalanced then index / sqrtLen else 0
  let stDbLength := if rebalanced then sqrtLen else dbLength
  let shares := secretSharing s ix stDbLength alpha numServers
  let answers := shares.map (fun qvec => answerSingleBit rows cols entries (fun c => qvec.getD c feZero))
  Reconstruct rebalanced iy alpha answers

/-- C2: evaluation of the secret sharing at `numServers = 3`, database
length 2, with a stream whose first byte is 1 (so `alpha` is nonzero) and
all later bytes 0 (so the random vector is zero).  The code hands the SAME
random vector to both of the first two shares, and since the two random
contributions cancel in characteristic 2, the third share equals the
plaintext query `E` exactly: it is `[alpha, 0]` for index 0 and
`[0, alpha]` for index 1, so a single share reveals the queried index,
contradicting the claimed fresh per-share randomness and one-share
privacy. -/
theorem c2_single_share_reveals_index :
    (secretSharing (fun i => if i = 0 then 1 else 0) 0 2
        (elemOfBytes (fun i => if i = 0 then 1 else 0) 0) 3).getD 2 [] =
      [elemOfBytes (fun i => if i = 0 then 1 else 0) 0, feZero] ∧
    (secretSharing (fun i => if i = 0 then 1 else 0) 1 2
        (elemOfBytes (fun i => if i = 0 then 1 else 0) 0) 3).getD 2 [] =
      [feZero, elemOfBytes (fun i => if i = 0 then 1 else 0) 0] ∧
    (secretSharing (fun i => if i = 0 then 1 else 0) 0 2
        (elemOfBytes (fun i => if i = 0 then 1 else 0) 0) 3).getD 2 [] ≠
      (secretSharing (fun i => if i = 0 then 1 else 0) 1 2
        (elemOfBytes (fun i => if i = 0 then 1 else 0) 0) 3).getD 2 [] ∧
    (secretSharing (fun i => if i = 0 then 1 else 0) 0 2
        (elemOfBytes (fun i => if i = 0 then 1 else 0) 0) 3).getD 0 [] =
      (secretSharing (fun i => if i = 0 then 1 else 0) 0 2
        (elemOfBytes (fun i => if i = 0 then 1 else 0) 0) 3).getD 1 [] := by
  refine ⟨by decide, by decide, by decide, by decide⟩

end VPIR

namespace VPIR

/-- The componentwise sum of the per-server answers computed by the
reconstruction loop. -/
def reconstructSum (answers : List (List gcmFieldElement)) (i : Nat) : gcmFieldElement :=
  answers.foldl (fun acc a => gcmAdd acc (a.getD i feZero)) feZero

/-- C5: per-position tri-valued reconstruction.  `Reconstruct` sums the
answer vectors componentwise and returns an error exactly when some
position (not only the target one) sums to neither zero nor `alpha`;
otherwise it returns a value, mapping the target position (0 in vector
mode, `iy` in matrix mode) to one if it sums to `alpha` and to zero
otherwise (all-or-nothing). -/
theorem c5_per_position_reconstruction (rebalanced : Bool) (iy : Nat)
    (alpha : gcmFieldElement) (answers : List (List gcmFieldElement)) (L : Nat)
    (hne : answers ≠ [])
    (hlen : ∀ a ∈ answers, a.length = L)
    (htgt : (if rebalanced then iy else 0) < L) :
    (Reconstruct rebalanced iy alpha answers = none ↔
      ∃ i, i < L ∧ reconstructSum answers i ≠ alpha ∧ reconstructSum answers i ≠ feZero) ∧
    ((∀ i, i < L → reconstructSum answers i = alpha ∨ reconstructSum answers i = feZero) →
      Reconstruct rebalanced iy alpha answers =
        some (if reconstructSum answers (if rebalanced then iy else 0) = alpha
          then cstOne else cstZero)) := by
  have hLen0 : (answers.headD []).length = L := by
    cases answers with
    | nil => exact absurd rfl hne
    | cons a t => exact hlen a (List.mem_cons_self a t)
  have hfold : ∀ i, List.foldl (fun acc a => gcmAdd acc (a.getD i feZero)) feZero answers =
      reconstructSum answers i := fun _ => rfl
  have hany : ((List.range L).any
      (fun i => !(reconstructSum answers i == alpha) && !(reconstructSum answers i == feZero))) =
      true ↔
      ∃ i, i < L ∧ reconstructSum answers i ≠ alpha ∧ reconstructSum answers i ≠ feZero := by
    rw [List.any_eq_true]
    constructor
    · rintro ⟨i, hi, hp⟩
      refine ⟨i, List.mem_range.mp hi, ?_⟩
      simpa using hp
    · rintro ⟨i, hi, hp⟩
      exact ⟨i, List.mem_range.mpr hi, by simpa using hp⟩
  constructor
  · rw [Reconstruct]
    simp only [hLen0, hfold]
    by_cases hc : ((List.range L).any
        (fun i => !(reconstructSum answers i == alpha) && !(reconstructSum answers i == feZero))) = true
    · rw [if_pos (by exact hc)]
      simp only [true_iff]
      exact (hany.mp hc).imp (fun i h => h)
    · rw [if_neg (by exact hc)]
      constructor
      · intro hnone
        by_cases h1 : reconstructSum answers (if rebalanced then iy else 0) == alpha
        · rw [if_pos h1] at hnone
          exact absurd hnone (by simp)
        · rw [if_neg h1] at hnone
          by_cases h2 : reconstructSum answers (if rebalanced then iy else 0) == cstZero
          · rw [if_pos h2] at hnone
            exact absurd hnone (by simp)
          · refine ⟨if rebalanced then iy else 0, htgt, ?_, ?_⟩
            · simpa using h1
            · simpa [cstZero] using h2
      · intro hex
        exact absurd (hany.mpr hex) hc
  · intro hall
    rw [Reconstruct]
    simp only [hLen0, hfold]
    have hc : ((List.range L).any
        (fun i => !(reconstructSum answers i == alpha) && !(reconstructSum answers i == feZero))) = false := by
      rw [Bool.eq_false_iff]
      intro hc
      obtain ⟨i, hi, h1, h2⟩ := hany.mp hc
      rcases hall i hi with h | h
      · exact h1 h
      · exact h2 h
    rw [hc]
    simp only [Bool.false_eq_true, if_false]
    by_cases h1 : reconstructSum answers (if rebalanced then iy else 0) = alpha
    · rw [if_pos (by simpa using h1), if_pos h1]
    · rw [if_neg (by simpa using h1), if_neg h1]
      rcases hall _ htgt with h | h
      · exact absurd h h1
      · rw [if_pos (by simpa [cstZero] using h)]

/-- C5 witness: reconstruction over two honest single-position answers
summing to `alpha = one` at the target accepts and returns one. -/
theorem c5_per_position_reconstruction_witness :
    [[feOne], [feZero]] ≠ ([] : List (List gcmFieldElement)) ∧
    Reconstruct false 0 feOne [[feOne], [feZero]] =
      some (if reconstructSum [[feOne], [feZero]] 0 = feOne then cstOne else cstZero) :=
  ⟨by decide,
    (c5_per_position_reconstruction false 0 feOne [[feOne], [feZero]] 1 (by decide)
      (by intro a ha; simp only [List.mem_cons, List.not_mem_nil, or_false] at ha
          rcases ha with h | h <;> simp [h])
      (by decide)).2 (by decide)⟩

end VPIR

namespace VPIR

theorem foldl_gcmAdd_const (x : gcmFieldElement) :
    ∀ m, (List.range m).foldl (fun acc _ => gcmAdd acc x) feZero =
      if m % 2 = 1 then x else feZero := by
  intro m
  induction m with
  | zero => simp
  | succ m ih =>
    rw [List.range_succ, List.foldl_append, List.foldl_cons, List.foldl_nil, ih]
    by_cases hm : m % 2 = 1
    · rw [if_pos hm, if_neg (by omega), gcmAdd_self]
    · rw [if_neg hm, if_pos (by omega), zero_gcmAdd]

theorem nsmul_parity (m : Nat) (x : gcmFieldElement) :
    m • x = if m % 2 = 1 then x else feZero := by
  induction m with
  | zero => rw [zero_nsmul, if_neg (by omega)]; rfl
  | succ m ih =>
    rw [succ_nsmul, ih]
    by_cases hm : m % 2 = 1
    · rw [if_pos hm, if_neg (by omega), ← gcmAdd_eq_add, gcmAdd_self]
    · rw [if_neg hm, if_pos (by omega), feZero_eq_zero, zero_add]

theorem foldl_add_map_sum {α : Type} (f : α → gcmFieldElement) (l : List α) :
    ∀ z, l.foldl (fun acc a => gcmAdd acc (f a)) z = z + (l.map f).sum := by
  induction l with
  | nil => intro z; simp
  | cons a t ih =>
    intro z
    rw [List.foldl_cons, ih, List.map_cons, List.sum_cons, gcmAdd_eq_add, add_assoc]

theorem list_range_map_sum (f : Nat → gcmFieldElement) (n : Nat) :
    ((List.range n).map f).sum = ∑ k ∈ Finset.range n, f k := by
  induction n with
  | zero => simp
  | succ m ih =>
    rw [List.range_succ, List.map_append, List.sum_append, ih, Finset.sum_range_succ]
    simp

/-- The componentwise sum of all shares at one position recovers the
plaintext query there: the first `n-1` shares contribute the same random
element `n-1` times, which cancels against the copy folded into the last
share. -/
theorem shareSum (n : Nat) (hn : 1 ≤ n) (r E : gcmFieldElement) :
    ∑ k ∈ Finset.range n,
      (if k < n - 1 then r
       else gcmAdd E ((List.range (n - 1)).foldl (fun acc _ => gcmAdd acc r) feZero)) = E := by
  obtain ⟨m, rfl⟩ : ∃ m, n = m + 1 := ⟨n - 1, by omega⟩
  rw [Finset.sum_range_succ]
  simp only [Nat.add_sub_cancel]
  rw [if_neg (by omega), foldl_gcmAdd_const]
  have h1 : ∑ k ∈ Finset.range m,
      (if k < m then r
       else gcmAdd E (if m % 2 = 1 then r else feZero)) = m • r := by
    rw [Finset.sum_congr rfl (fun k hk => if_pos (Finset.mem_range.mp hk)),
      Finset.sum_const, Finset.card_range]
  rw [h1, nsmul_parity]
  by_cases hm : m % 2 = 1
  · have hrr : r + r = (0 : gcmFieldElement) := by
      rw [← gcmAdd_eq_add, gcmAdd_self, feZero_eq_zero]
    rw [if_pos hm, gcmAdd_eq_add, add_comm E r, ← add_assoc, hrr, zero_add]
  · rw [if_neg hm, gcmAdd_zero, feZero_eq_zero, zero_add]

theorem getD_list_eq_getElem (l : List (List gcmFieldElement)) (i : Nat) (h : i < l.length) :
    l.getD i [] = l[i] := by
  rw [List.getD_eq_getElem?_getD, List.getElem?_eq_getElem h, Option.getD_some]

theorem answerSingleBit_length (rows cols : Nat) (entries q : Nat → gcmFieldElement) :
    (answerSingleBit rows cols entries q).length = rows := by
  simp [answerSingleBit]

theorem answerSingleBit_getD (rows cols : Nat) (entries q : Nat → gcmFieldElement)
    (r : Nat) (hr : r < rows) :
    (answerSingleBit rows cols entries q).getD r feZero =
      ∑ c ∈ (Finset.range cols).filter (fun c => entries (r * cols + c) = cstOne), q c := by
  rw [getD_fe_eq_getElem (show r < (answerSingleBit rows cols entries q).length by
    rw [answerSingleBit_length]; exact hr)]
  simp only [answerSingleBit, List.getElem_map, List.getElem_range]
  rw [foldl_ite_add cols (fun c => entries (r * cols + c) = cstOne) q feZero,
    feZero_eq_zero, zero_add]

theorem secretSharing_getD (s : Nat → Nat) (ix dbLength : Nat) (alpha : gcmFieldElement)
    (n k c : Nat) (hk : k < n) (hc : c < dbLength) :
    ((secretSharing s ix dbLength alpha n).getD k []).getD c feZero =
      (if k < n - 1 then (RandomVectorXOF dbLength s 16).getD c feZero
       else gcmAdd (if c = ix then alpha else feZero)
         ((List.range (n - 1)).foldl
           (fun acc _ => gcmAdd acc ((RandomVectorXOF dbLength s 16).getD c feZero)) feZero)) := by
  have hk' : k < (secretSharing s ix dbLength alpha n).length := by
    simpa [secretSharing] using hk
  rw [getD_list_eq_getElem _ _ hk']
  have hc' : c < ((secretSharing s ix dbLength alpha n)[k]).length := by
    simpa [secretSharing] using hc
  rw [getD_fe_eq_getElem hc']
  simp only [secretSharing, List.getElem_map, List.getElem_range]

end VPIR

namespace VPIR

/-- When every componentwise sum is `alpha` or zero, `Reconstruct` accepts
and maps the target component to one (sum `alpha`) or zero (sum zero). -/
theorem Reconstruct_accept (rebalanced : Bool) (iy : Nat) (alpha : gcmFieldElement)
    (answers : List (List gcmFieldElement)) (L : Nat)
    (hlen0 : (answers.headD []).length = L)
    (htgt : (if rebalanced then iy else 0) < L)
    (hall : ∀ i, i < L → reconstructSum answers i = alpha ∨ reconstructSum answers i = feZero) :
    Reconstruct rebalanced iy alpha answers =
      some (if reconstructSum answers (if rebalanced then iy else 0) = alpha
        then cstOne else cstZero) := by
  have hfold : ∀ i, List.foldl (fun acc a => gcmAdd acc (a.getD i feZero)) feZero answers =
      reconstructSum answers i := fun _ => rfl
  rw [Reconstruct]
  simp only [hlen0, hfold]
  have hc : ((List.range L).any
      (fun i => !(reconstructSum answers i == alpha) && !(reconstructSum answers i == feZero))) = false := by
    rw [Bool.eq_false_iff]
    intro hc
    obtain ⟨i, hi, hp⟩ := List.any_eq_true.mp hc
    have hi' := List.mem_range.mp hi
    rcases hall i hi' with h | h <;> simp [h] at hp
  rw [hc]
  simp only [Bool.false_eq_true, if_false]
  by_cases h1 : reconstructSum answers (if rebalanced then iy else 0) = alpha
  · rw [if_pos (by simpa using h1), if_pos h1]
  · rw [if_neg (by simpa using h1), if_neg h1]
    rcases hall _ htgt with h | h
    · exact absurd h h1
    · rw [if_pos (by simpa [cstZero] using h)]

theorem feZero_add (x : gcmFieldElement) : feZero + x = x := zero_add x

theorem map_sum_eq_range_sum {α : Type} (l : List α) (h : α → gcmFieldElement) (d : α) :
    (l.map h).sum = ∑ k ∈ Finset.range l.length, h (l.getD k d) := by
  rw [← list_range_map_sum]
  congr 1
  apply List.ext_getElem
  · simp
  · intro i h1 h2
    simp only [List.getElem_map, List.getElem_range]
    congr 1
    rw [List.getD_eq_getElem?_getD, List.getElem?_eq_getElem (by simpa using h1),
      Option.getD_some]

/-- Componentwise sums of the honest answers: position `r` of the summed
answers carries `alpha` exactly when the database bit `D[r, ix]` is one. -/
theorem honest_answer_sums (s : Nat → Nat) (rows cols numServers ix : Nat)
    (entries : Nat → gcmFieldElement) (alpha : gcmFieldElement)
    (hns : 2 ≤ numServers) (hix : ix < cols) (r : Nat) (hr : r < rows) :
    reconstructSum
        ((secretSharing s ix cols alpha numServers).map
          (fun qvec => answerSingleBit rows cols entries (fun c => qvec.getD c feZero))) r =
      if entries (r * cols + ix) = cstOne then alpha else feZero := by
  rw [reconstructSum, foldl_add_map_sum, feZero_add, List.map_map]
  have hlen : ((secretSharing s ix cols alpha numServers).map
      ((fun a => a.getD r feZero) ∘ (fun qvec =>
        answerSingleBit rows cols entries (fun c => qvec.getD c feZero)))).sum =
      ∑ k ∈ Finset.range numServers,
        ∑ c ∈ (Finset.range cols).filter (fun c => entries (r * cols + c) = cstOne),
          ((secretSharing s ix cols alpha numServers).getD k []).getD c feZero := by
    rw [map_sum_eq_range_sum _ _ []]
    have hslen : (secretSharing s ix cols alpha numServers).length = numServers := by
      simp [secretSharing]
    rw [hslen]
    apply Finset.sum_congr rfl
    intro k _
    simp only [Function.comp_apply]
    rw [answerSingleBit_getD rows cols entries _ r hr]
  rw [hlen]
  rw [Finset.sum_comm]
  have hinner : ∀ c ∈ (Finset.range cols).filter (fun c => entries (r * cols + c) = cstOne),
      ∑ k ∈ Finset.range numServers,
        ((secretSharing s ix cols alpha numServers).getD k []).getD c feZero =
      (if c = ix then alpha else feZero) := by
    intro c hc
    have hcc : c < cols := Finset.mem_range.mp (Finset.mem_filter.mp hc).1
    have hval : ∀ k, k < numServers →
        ((secretSharing s ix cols alpha numServers).getD k []).getD c feZero =
        (if k < numServers - 1 then (RandomVectorXOF cols s 16).getD c feZero
         else gcmAdd (if c = ix then alpha else feZero)
           ((List.range (numServers - 1)).foldl
             (fun acc _ => gcmAdd acc ((RandomVectorXOF cols s 16).getD c feZero)) feZero)) :=
      fun k hk => secretSharing_getD s ix cols alpha numServers k c hk hcc
    rw [Finset.sum_congr rfl (fun k hk => hval k (Finset.mem_range.mp hk))]
    exact shareSum numServers (by omega) _ _
  rw [Finset.sum_congr rfl hinner, feZero_eq_zero, Finset.sum_ite_eq'
    ((Finset.range cols).filter (fun c => entries (r * cols + c) = cstOne)) ix
    (fun _ => alpha)]
  by_cases hmem : entries (r * cols + ix) = cstOne
  · have hin : ix ∈ (Finset.range cols).filter (fun c => entries (r * cols + c) = cstOne) :=
      Finset.mem_filter.mpr ⟨Finset.mem_range.mpr hix, hmem⟩
    rw [if_pos hin, if_pos hmem]
  · have hnotin : ix ∉ (Finset.range cols).filter (fun c => entries (r * cols + c) = cstOne) :=
      fun hin => hmem (Finset.mem_filter.mp hin).2
    rw [if_neg hnotin, if_neg hmem]

end VPIR

namespace VPIR

/-- C1 counterexample: with the all-zero XOF stream the sampled `alpha` is
the zero element, and on the one-entry zero database (vector layout, two
servers) the end-to-end run returns One even though `D[0] = 0`, because
the target sum 0 equals `alpha` and the reconstruction maps it to One;
the claim requires Zero here. -/
theorem c1_honest_correctness_counterexample :
    ITSingleGFRun (fun _ => 0) false 0 1 2 1 1 (fun _ => feZero) = some cstOne ∧
    (fun _ => feZero : Nat → gcmFieldElement) 0 = feZero ∧ cstOne ≠ cstZero := by
  refine ⟨by decide, rfl, by decide⟩

/-- Honest single-bit run at the reconstruction level: for a nonzero
`alpha`, binary database entries, `ix < cols` and a valid target row, the
reconstruction of the honest answers returns One or Zero according to the
addressed entry. -/
theorem honest_run_correct (s : Nat → Nat) (rebalanced : Bool)
    (rows cols numServers ix iy : Nat) (entries : Nat → gcmFieldElement)
    (hns : 2 ≤ numServers) (hix : ix < cols)
    (htgt : (if rebalanced then iy else 0) < rows)
    (hD : ∀ i, entries i = feZero ∨ entries i = feOne)
    (halpha : elemOfBytes s 0 ≠ feZero) :
    Reconstruct rebalanced iy (elemOfBytes s 0)
        ((secretSharing s ix cols (elemOfBytes s 0) numServers).map
          (fun qvec => answerSingleBit rows cols entries (fun c => qvec.getD c feZero))) =
      some (if entries ((if rebalanced then iy else 0) * cols + ix) = feOne
        then cstOne else cstZero) := by
  set answers := (secretSharing s ix cols (elemOfBytes s 0) numServers).map
    (fun qvec => answerSingleBit rows cols entries (fun c => qvec.getD c feZero)) with hans
  have hslen : (secretSharing s ix cols (elemOfBytes s 0) numServers).length = numServers := by
    simp [secretSharing]
  have hlens : ∀ a ∈ answers, a.length = rows := by
    intro a ha
    rw [hans] at ha
    obtain ⟨qv, _, hqv⟩ := List.mem_map.mp ha
    rw [← hqv]
    exact answerSingleBit_length _ _ _ _
  have hne : answers ≠ [] := by
    rw [hans]
    intro hnil
    have := congrArg List.length hnil
    simp only [List.length_map, hslen, List.length_nil] at this
    omega
  have hlen0 : (answers.headD []).length = rows := by
    cases hcatch : answers with
    | nil => exact absurd hcatch hne
    | cons a t =>
      simp only [List.headD_cons]
      exact hlens a (by rw [hcatch]; exact List.mem_cons_self a t)
  have hsum : ∀ r, r < rows → reconstructSum answers r =
      if entries (r * cols + ix) = cstOne then elemOfBytes s 0 else feZero := by
    intro r hr
    rw [hans]
    exact honest_answer_sums s rows cols numServers ix entries (elemOfBytes s 0) hns hix r hr
  have hall : ∀ i, i < rows → reconstructSum answers i = elemOfBytes s 0 ∨
      reconstructSum answers i = feZero := by
    intro i hi
    rw [hsum i hi]
    by_cases h : entries (i * cols + ix) = cstOne
    · left; rw [if_pos h]
    · right; rw [if_neg h]
  rw [Reconstruct_accept rebalanced iy (elemOfBytes s 0) answers rows hlen0 htgt hall]
  rw [hsum _ htgt]
  rcases hD ((if rebalanced then iy else 0) * cols + ix) with hz | ho
  · have hnot : ¬(entries ((if rebalanced then iy else 0) * cols + ix) = cstOne) := by
      rw [hz]; decide
    rw [if_neg hnot, if_neg (by rw [hz]; decide :
      ¬(entries ((if rebalanced then iy else 0) * cols + ix) = feOne))]
    rw [if_neg (fun h => halpha h.symm)]
  · have hyes : entries ((if rebalanced then iy else 0) * cols + ix) = cstOne := by
      rw [ho]; rfl
    rw [if_pos hyes, if_pos (by rw [ho] : entries ((if rebalanced then iy else 0) * cols + ix) = feOne)]
    rw [if_pos rfl]

/-- C1 (amended): end-to-end honest-server correctness of the single-bit
IT scheme, provided the sampled `alpha` is nonzero.  For every database of
zeros and ones, every valid index, and every `numServers >= 2`, if each
server honestly computes `answer` on its share then `Reconstruct` succeeds
and returns One when the addressed entry is one and Zero when it is zero;
in matrix mode the addressed entry is `D[iy, ix]` with
`ix = i mod sqrt(N)` and `iy = i div sqrt(N)`. -/
theorem c1_honest_correctness_amended (s : Nat → Nat) (rebalanced : Bool)
    (index dbLength numServers : Nat) (entries : Nat → gcmFieldElement)
    (hns : 2 ≤ numServers)
    (hidx : index < dbLength)
    (hsq : rebalanced = true → dbLength = Nat.sqrt dbLength * Nat.sqrt dbLength)
    (hD : ∀ i, entries i = feZero ∨ entries i = feOne)
    (halpha : elemOfBytes s 0 ≠ feZero) :
    ITSingleGFRun s rebalanced index dbLength numServers
        (if rebalanced then Nat.sqrt dbLength else 1)
        (if rebalanced then Nat.sqrt dbLength else dbLength) entries =
      some (if entries ((if rebalanced then index / Nat.sqrt dbLength else 0) *
          (if rebalanced then Nat.sqrt dbLength else dbLength) +
          (if rebalanced then index % Nat.sqrt dbLength else index)) = feOne
        then cstOne else cstZero) := by
  cases rebalanced with
  | false =>
    have hrun : ITSingleGFRun s false index dbLength numServers 1 dbLength entries =
        Reconstruct false 0 (elemOfBytes s 0)
          ((secretSharing s index dbLength (elemOfBytes s 0) numServers).map
            (fun qvec => answerSingleBit 1 dbLength entries (fun c => qvec.getD c feZero))) := rfl
    simp only [Bool.false_eq_true, if_false]
    rw [hrun]
    have h := honest_run_correct s false 1 dbLength numServers index 0 entries hns hidx
      (by simp) hD halpha
    rw [h]
    simp
  | true =>
    have hsq2 := hsq rfl
    have hsq1 : 1 ≤ Nat.sqrt dbLength := by
      rcases Nat.eq_zero_or_pos (Nat.sqrt dbLength) with h0 | h1
      · rw [h0] at hsq2
        omega
      · exact h1
    have hrun : ITSingleGFRun s true index dbLength numServers (Nat.sqrt dbLength)
        (Nat.sqrt dbLength) entries =
        Reconstruct true (index / Nat.sqrt dbLength) (elemOfBytes s 0)
          ((secretSharing s (index % Nat.sqrt dbLength) (Nat.sqrt dbLength)
              (elemOfBytes s 0) numServers).map
            (fun qvec => answerSingleBit (Nat.sqrt dbLength) (Nat.sqrt dbLength) entries
              (fun c => qvec.getD c feZero))) := rfl
    simp only [eq_self_iff_true, if_true]
    rw [hrun]
    have h := honest_run_correct s true (Nat.sqrt dbLength) (Nat.sqrt dbLength) numServers
      (index % Nat.sqrt dbLength) (index / Nat.sqrt dbLength) entries hns
      (Nat.mod_lt _ (by omega))
      (by simp only [eq_self_iff_true, if_true]
          rw [Nat.div_lt_iff_lt_mul (by omega), ← hsq2]
          exact hidx)
      hD halpha
    rw [h]
    simp

/-- C1 witness: the amended theorem applied to a concrete two-entry
database `[1, 0]` in vector layout with two servers and a stream whose
first byte is 1 (nonzero `alpha`), retrieving index 0. -/
theorem c1_honest_correctness_amended_witness :
    ITSingleGFRun (fun i => if i = 0 then 1 else 0) false 0 2 2 1 2
        (fun i => if i = 0 then feOne else feZero) =
      some (if (fun i => if i = 0 then feOne else feZero : Nat → gcmFieldElement)
          (0 * 2 + 0) = feOne then cstOne else cstZero) := by
  have h := c1_honest_correctness_amended (fun i => if i = 0 then 1 else 0) false 0 2 2
    (fun i => if i = 0 then feOne else feZero) (by omega) (by omega)
    (fun h => absurd h (by decide))
    (fun i => by by_cases h : i = 0 <;> simp [h])
    (by decide)
  simpa using h

end VPIR

namespace VPIR

/-! ## Persisted database layer: `lib/database` (file `db.go`) -/

/-- The numeric and mode fields of `database.Info` (the optional
`Auth`/`Merkle`/`DataEmbedding`/lattice pointers are nil for the plain
databases saved and loaded here). -/
structure Info where
  NumRows : Nat
  NumColumns : Nat
  BlockSize : Nat
  PIRType : String
  deriving DecidableEq, Repr

/-- An in-memory database: its `Info` and the flat element storage. -/
structure DB where
  Info : Info
  inMemory : List gcmFieldElement
  deriving DecidableEq, Repr

/-- Embedding of `NewDB`: allocate `BlockSize*NumColumns*NumRows` elements,
except that a block size of zero (single-bit database) allocates
`NumColumns*NumRows` elements. -/
def NewDB (info : Info) : DB :=
  let n := info.BlockSize * info.NumColumns * info.NumRows
  let n := if info.BlockSize = 0 then info.NumColumns * info.NumRows else n
  { Info := info, inMemory := List.replicate n feZero }

/-- Embedding of `DB.SetEntry`. -/
def SetEntry (d : DB) (i : Nat) (el : gcmFieldElement) : DB :=
  { d with inMemory := d.inMemory.set i el }

/-- What `SaveDB` persists into the bolt bucket: the `saveInfo` record
(the `Info` and the chunk index) and one entry per chunk keyed by its
start index. -/
structure SavedDB where
  info : Info
  chunkIndex : List (Nat × Nat)
  store : List (Nat × List gcmFieldElement)
  deriving DecidableEq, Repr

/-- Embedding of `SaveDB` with the default chunk size `1e7`: the loop
`for i := 0; i < n; i += chunkSize` over `n = BlockSize*NumColumns*NumRows`
elements stores `inMemory[i:]` for the final chunk and
`inMemory[i:i+chunkSize]` otherwise, recording `[i, i+len(chunk)]` in the
chunk index. -/
def SaveDB (d : DB) : SavedDB :=
  let chunkSize := 10000000
  let n := d.Info.BlockSize * d.Info.NumColumns * d.Info.NumRows
  let chunks := (chunkStarts n chunkSize).map (fun i =>
    (i, if i + chunkSize ≥ n then d.inMemory.drop i else (d.inMemory.drop i).take chunkSize))
  { info := d.Info
    chunkIndex := chunks.map (fun c => (c.1, c.1 + c.2.length))
    store := chunks }

/-- Go's `copy(elements[start:start+len(chunk)], chunk)`: overwrite the
destination positions `[start, start+len(chunk))` that exist, leave the
rest unchanged. -/
def copySeg (dest : List gcmFieldElement) (start : Nat)
    (chunk : List gcmFieldElement) : List gcmFieldElement :=
  (List.range dest.length).map (fun i =>
    if start ≤ i ∧ i < start + chunk.length then chunk.getD (i - start) feZero
    else dest.getD i feZero)

/-- Embedding of `LoadDB`: allocate `BlockSize*NumColumns*NumRows` zero
elements and copy every chunk recorded in the chunk index from the store
into its `[start, end)` range. -/
def LoadDB (sd : SavedDB) : DB :=
  let n := sd.info.BlockSize * sd.info.NumColumns * sd.info.NumRows
  let elements := sd.chunkIndex.foldl (fun els se =>
    let chunk := ((sd.store.find? (fun p => p.1 == se.1)).map Prod.snd).getD []
    copySeg els se.1 chunk) (List.replicate n feZero)
  { Info := sd.info, inMemory := elements }

/-- C10: evaluation at the failing input.  A single-bit database
(`BlockSize = 0`, one row, two columns) allocated by `NewDB` holds two
elements, but `SaveDB` computes `n = BlockSize*NumColumns*NumRows = 0`,
saves no chunks, and `LoadDB` allocates and returns zero elements: the
`Info` round-trips but the stored element sequence is lost, while a
`BlockSize = 1` database of the same size round-trips completely. -/
theorem c10_single_bit_roundtrip_fails :
    (NewDB ⟨1, 2, 0, "classic"⟩).inMemory.length = 2 ∧
    (LoadDB (SaveDB (SetEntry (NewDB ⟨1, 2, 0, "classic"⟩) 0 feOne))).Info =
      (SetEntry (NewDB ⟨1, 2, 0, "classic"⟩) 0 feOne).Info ∧
    (LoadDB (SaveDB (SetEntry (NewDB ⟨1, 2, 0, "classic"⟩) 0 feOne))).inMemory = [] ∧
    (SetEntry (NewDB ⟨1, 2, 0, "classic"⟩) 0 feOne).inMemory = [feOne, feZero] ∧
    (LoadDB (SaveDB (SetEntry (NewDB ⟨1, 2, 1, "classic"⟩) 0 feOne))).inMemory =
      (SetEntry (NewDB ⟨1, 2, 1, "classic"⟩) 0 feOne).inMemory := by
  refine ⟨by decide, rfl, by decide, by decide, by decide⟩

end VPIR

namespace VPIR

/-! ### The GHASH polynomial and its quotient ring -/

/-- The GHASH modulus 1 + x + x² + x⁷ + x¹²⁸ over GF(2). -/
noncomputable def ghPoly : Polynomial (ZMod 2) :=
  Polynomial.X ^ 128 + Polynomial.X ^ 7 + Polynomial.X ^ 2 + Polynomial.X + 1

/-- The quotient ring GF(2)[x] / (ghPoly). -/
abbrev GH : Type := AdjoinRoot ghPoly

/-- The image of x in the quotient. -/
noncomputable def ghRoot : GH := AdjoinRoot.root ghPoly

lemma ghPoly_natDegree : ghPoly.natDegree = 128 := by
  unfold ghPoly
  compute_degree!

lemma ghPoly_monic : ghPoly.Monic := by
  unfold ghPoly
  have h : (Polynomial.X ^ 7 + Polynomial.X ^ 2 + Polynomial.X + 1 :
      Polynomial (ZMod 2)).degree < (128 : ℕ) := by
    apply lt_of_le_of_lt (Polynomial.degree_add_le _ _)
    apply max_lt
    · apply lt_of_le_of_lt (Polynomial.degree_add_le _ _)
      apply max_lt
      · apply lt_of_le_of_lt (Polynomial.degree_add_le _ _)
        apply max_lt
        · exact lt_of_le_of_lt (Polynomial.degree_X_pow_le _) (by norm_num)
        · exact lt_of_le_of_lt (Polynomial.degree_X_pow_le _) (by norm_num)
      · exact lt_of_le_of_lt Polynomial.degree_X_le (by norm_num)
    · exact lt_of_le_of_lt Polynomial.degree_one_le (by norm_num)
  have := Polynomial.monic_X_pow_add (n := 128)
    (p := (Polynomial.X ^ 7 + Polynomial.X ^ 2 + Polynomial.X + 1 : Polynomial (ZMod 2)))
    h
  simpa [add_assoc] using this

lemma ghPoly_ne_zero : ghPoly ≠ 0 := ghPoly_monic.ne_zero

lemma gh_two_eq_zero : (2 : GH) = 0 := by
  have h1 : (2 : GH) = algebraMap (ZMod 2) GH (2 : ZMod 2) := (map_ofNat _ 2).symm
  rw [h1, show (2 : ZMod 2) = 0 from rfl, map_zero]

lemma gh_add_self (a : GH) : a + a = 0 := by
  have : a + a = 2 * a := (two_mul a).symm
  rw [this, gh_two_eq_zero, zero_mul]

lemma gh_root_pow_128 : ghRoot ^ 128 = ghRoot ^ 7 + ghRoot ^ 2 + ghRoot + 1 := by
  have h0 : (AdjoinRoot.mk ghPoly)
      (Polynomial.X ^ 128 + Polynomial.X ^ 7 + Polynomial.X ^ 2 + Polynomial.X + 1) = 0 :=
    AdjoinRoot.mk_self
  simp only [map_add, map_pow, map_one, AdjoinRoot.mk_X] at h0
  rw [show AdjoinRoot.root ghPoly = ghRoot from rfl] at h0
  have h2 := congrArg (· + (ghRoot ^ 7 + ghRoot ^ 2 + ghRoot + 1)) h0
  simp only at h2
  rw [zero_add] at h2
  rw [show ghRoot ^ 128 + ghRoot ^ 7 + ghRoot ^ 2 + ghRoot + 1 +
      (ghRoot ^ 7 + ghRoot ^ 2 + ghRoot + 1) =
      ghRoot ^ 128 + ((ghRoot ^ 7 + ghRoot ^ 7) + (ghRoot ^ 2 + ghRoot ^ 2) +
        (ghRoot + ghRoot) + (1 + 1)) by ring] at h2
  simp only [gh_add_self, add_zero, zero_add] at h2
  exact h2

/-! ### The coefficient embedding phi -/

/-- The coefficient of x^k of the polynomial an element represents:
for k < 64 it is bit 63-k of the low limb, otherwise bit 127-k of the
high limb. -/
def bitc (z : gcmFieldElement) (k : Nat) : Bool :=
  if k < 64 then z.low.testBit (63 - k) else z.high.testBit (127 - k)

/-- Interpretation of an element as a member of GF(2)[x]/(ghPoly). -/
noncomputable def phi (z : gcmFieldElement) : GH :=
  ∑ k ∈ Finset.range 128, (if bitc z k then ghRoot ^ k else 0)

/-- The polynomial a 4-bit multiplier nibble denotes, once bit-reversed. -/
noncomputable def psi (m : Nat) : GH :=
  ∑ j ∈ Finset.range 4, (if m.testBit (3 - j) then ghRoot ^ j else 0)

lemma bitc_gcmAdd (x y : gcmFieldElement) (k : Nat) :
    bitc (gcmAdd x y) k = xor (bitc x k) (bitc y k) := by
  unfold bitc gcmAdd
  dsimp only
  split <;> rw [Nat.testBit_xor]

lemma ite_xor_add (a b : Bool) (r : GH) :
    (if xor a b then r else 0) = (if a then r else 0) + (if b then r else 0) := by
  cases a <;> cases b <;> simp [gh_add_self]

lemma phi_gcmAdd (x y : gcmFieldElement) : phi (gcmAdd x y) = phi x + phi y := by
  unfold phi
  rw [← Finset.sum_add_distrib]
  refine Finset.sum_congr rfl (fun k _ => ?_)
  rw [bitc_gcmAdd, ite_xor_add]

lemma bitc_feZero (k : Nat) : bitc feZero k = false := by
  unfold bitc feZero
  split <;> simp

lemma phi_feZero : phi feZero = 0 := by
  unfold phi
  simp [bitc_feZero]

lemma bitc_feOne (k : Nat) : bitc feOne k = decide (k = 0) := by
  unfold bitc feOne
  by_cases hk : k < 64
  · rw [if_pos hk, Nat.shiftLeft_eq, one_mul, Nat.testBit_two_pow,
      decide_eq_decide]
    omega
  · rw [if_neg hk]
    simp only [Nat.zero_testBit]
    symm
    rw [decide_eq_false_iff_not]
    omega

lemma phi_feOne : phi feOne = 1 := by
  unfold phi
  simp only [bitc_feOne, decide_eq_true_eq]
  rw [Finset.sum_ite_eq' (Finset.range 128) 0 (fun k => ghRoot ^ k)]
  simp

/-! ### Multiplication by x at the bit level -/

lemma testBit_ge_low (z : gcmFieldElement) (hz : WF z) (j : Nat) (hj : 64 ≤ j) :
    z.low.testBit j = false :=
  Nat.testBit_lt_two_pow (lt_of_lt_of_le hz.1 (Nat.pow_le_pow_right (by norm_num) hj))

lemma testBit_ge_high (z : gcmFieldElement) (hz : WF z) (j : Nat) (hj : 64 ≤ j) :
    z.high.testBit j = false :=
  Nat.testBit_lt_two_pow (lt_of_lt_of_le hz.2 (Nat.pow_le_pow_right (by norm_num) hj))

lemma testBit_e1mask (j : Nat) :
    Nat.testBit 0xe100000000000000 j =
      (decide (j = 63) || decide (j = 62) || decide (j = 61) || decide (j = 56)) := by
  rw [show (0xe100000000000000 : Nat) = 2 ^ 63 ||| 2 ^ 62 ||| 2 ^ 61 ||| 2 ^ 56 from by decide,
    Nat.testBit_or, Nat.testBit_or, Nat.testBit_or, Nat.testBit_two_pow, Nat.testBit_two_pow,
    Nat.testBit_two_pow, Nat.testBit_two_pow]
  rw [show (decide (63 = j) = decide (j = 63)) from by rw [decide_eq_decide]; omega,
    show (decide (62 = j) = decide (j = 62)) from by rw [decide_eq_decide]; omega,
    show (decide (61 = j) = decide (j = 61)) from by rw [decide_eq_decide]; omega,
    show (decide (56 = j) = decide (j = 56)) from by rw [decide_eq_decide]; omega]

lemma lowShift_bit (z : gcmFieldElement) (hz : WF z) (k : Nat) (hk : k < 64) :
    (z.low >>> 1).testBit (63 - k) = if k = 0 then false else bitc z (k - 1) := by
  rw [Nat.testBit_shiftRight]
  by_cases h0 : k = 0
  · subst h0
    rw [if_pos rfl, show 1 + (63 - 0) = 64 from by norm_num]
    exact testBit_ge_low z hz 64 le_rfl
  · rw [if_neg h0]
    unfold bitc
    rw [if_pos (by omega : k - 1 < 64), show 1 + (63 - k) = 63 - (k - 1) from by omega]

lemma highShift_bit (z : gcmFieldElement) (hz : WF z) (k : Nat) (hk1 : 64 ≤ k)
    (hk2 : k < 128) :
    ((z.high >>> 1) ||| ((z.low <<< 63) % 2 ^ 64)).testBit (127 - k) = bitc z (k - 1) := by
  rw [Nat.testBit_or, Nat.testBit_shiftRight, Nat.testBit_mod_two_pow, Nat.testBit_shiftLeft]
  by_cases h64 : k = 64
  · subst h64
    rw [show 1 + (127 - 64) = 64 from by norm_num, testBit_ge_high z hz 64 le_rfl]
    unfold bitc
    rw [if_pos (by norm_num : (64 : Nat) - 1 < 64)]
    norm_num
  · unfold bitc
    rw [if_neg (by omega : ¬ k - 1 < 64),
      show 1 + (127 - k) = 127 - (k - 1) from by omega]
    have hB : ¬ (63 ≤ 127 - k) := by omega
    simp [hB]

lemma bitc_gcmMultiplyByH (z : gcmFieldElement) (hz : WF z) (k : Nat) (hk : k < 128) :
    bitc (gcmMultiplyByH z) k =
      xor (if k = 0 then false else bitc z (k - 1))
        (bitc z 127 && decide (k = 0 ∨ k = 1 ∨ k = 2 ∨ k = 7)) := by
  have hb : bitc z 127 = z.high.testBit 0 := by
    unfold bitc
    norm_num
  unfold gcmMultiplyByH
  dsimp only
  by_cases hc : z.high &&& 1 = 1
  · have hb127 : bitc z 127 = true := by
      rw [hb, Nat.testBit_to_div_mod, decide_eq_true_eq]
      rw [Nat.and_one_is_mod] at hc
      simpa using hc
    rw [if_pos hc, hb127, Bool.true_and]
    unfold bitc
    dsimp only
    by_cases hk64 : k < 64
    · rw [if_pos hk64, Nat.testBit_xor, lowShift_bit z hz k hk64, testBit_e1mask]
      congr 1
      rw [show (decide ((63:Nat) - k = 63) = decide (k = 0)) from by rw [decide_eq_decide]; omega,
        show (decide ((63:Nat) - k = 62) = decide (k = 1)) from by rw [decide_eq_decide]; omega,
        show (decide ((63:Nat) - k = 61) = decide (k = 2)) from by rw [decide_eq_decide]; omega,
        show (decide ((63:Nat) - k = 56) = decide (k = 7)) from by rw [decide_eq_decide]; omega]
      simp [Bool.or_assoc]
    · rw [if_neg hk64, highShift_bit z hz k (by omega) hk]
      rw [show (decide (k = 0 ∨ k = 1 ∨ k = 2 ∨ k = 7) = false) from by
        rw [decide_eq_false_iff_not]; omega]
      rw [if_neg (by omega : ¬ k = 0), Bool.xor_false]
      rfl
  · have hb127 : bitc z 127 = false := by
      rw [hb, Nat.testBit_to_div_mod, decide_eq_false_iff_not]
      rw [Nat.and_one_is_mod] at hc
      simpa using hc
    rw [if_neg hc, hb127, Bool.false_and, Bool.xor_false]
    unfold bitc
    dsimp only
    by_cases hk64 : k < 64
    · rw [if_pos hk64]
      exact lowShift_bit z hz k hk64
    · rw [if_neg hk64, if_neg (by omega : ¬ k = 0)]
      exact highShift_bit z hz k (by omega) hk

lemma phi_gcmMultiplyByH (z : gcmFieldElement) (hz : WF z) :
    phi (gcmMultiplyByH z) = ghRoot * phi z := by
  unfold phi
  rw [Finset.sum_congr rfl (fun k hk => by
    rw [bitc_gcmMultiplyByH z hz k (Finset.mem_range.mp hk), ite_xor_add]),
    Finset.sum_add_distrib]
  have hpart1 : (∑ k ∈ Finset.range 128,
      (if (if k = 0 then false else bitc z (k - 1)) then ghRoot ^ k else 0)) =
      ghRoot * ∑ j ∈ Finset.range 127, (if bitc z j then ghRoot ^ j else 0) := by
    rw [show (128 : ℕ) = 127 + 1 from rfl, Finset.sum_range_succ']
    have h0 : (if (if (0 : ℕ) = 0 then false else bitc z (0 - 1)) then
        ghRoot ^ (0 : ℕ) else 0) = 0 := by simp
    rw [h0, add_zero, Finset.mul_sum]
    refine Finset.sum_congr rfl (fun i _ => ?_)
    rw [if_neg (Nat.succ_ne_zero i), show i + 1 - 1 = i from rfl]
    by_cases hb : bitc z i
    · rw [if_pos hb, if_pos hb, pow_succ, mul_comm]
    · rw [if_neg hb, if_neg hb, mul_zero]
  have hpart2 : (∑ k ∈ Finset.range 128,
      (if (bitc z 127 && decide (k = 0 ∨ k = 1 ∨ k = 2 ∨ k = 7)) then ghRoot ^ k else 0)) =
      (if bitc z 127 then ghRoot ^ 128 else 0) := by
    cases hb : bitc z 127
    · simp
    · simp only [Bool.true_and, decide_eq_true_eq, if_true]
      rw [← Finset.sum_filter,
        show Finset.filter (fun k => k = 0 ∨ k = 1 ∨ k = 2 ∨ k = 7) (Finset.range 128) =
          ({0, 1, 2, 7} : Finset ℕ) from by decide,
        show ({0, 1, 2, 7} : Finset ℕ) = insert 0 (insert 1 (insert 2 {7})) from rfl,
        Finset.sum_insert (by decide), Finset.sum_insert (by decide),
        Finset.sum_insert (by decide), Finset.sum_singleton, gh_root_pow_128]
      ring
  rw [hpart1, hpart2]
  conv_rhs => rw [show (128 : ℕ) = 127 + 1 from rfl, Finset.sum_range_succ, mul_add]
  congr 1
  by_cases hb : bitc z 127
  · rw [if_pos hb, if_pos hb, pow_succ, mul_comm]
  · rw [if_neg hb, if_neg hb, mul_zero]

/-! ### Well-formedness preservation -/

lemma shiftRight_lt_two_pow {x : Nat} (n : Nat) (hx : x < 2 ^ 64) : x >>> n < 2 ^ 64 :=
  lt_of_le_of_lt (by rw [Nat.shiftRight_eq_div_pow]; exact Nat.div_le_self x (2 ^ n)) hx

lemma WF_feZero : WF feZero := by decide

lemma WF_feOne : WF feOne := by decide

lemma WF_gcmAdd (x y : gcmFieldElement) (hx : WF x) (hy : WF y) : WF (gcmAdd x y) :=
  ⟨Nat.xor_lt_two_pow hx.1 hy.1, Nat.xor_lt_two_pow hx.2 hy.2⟩

lemma WF_gcmMultiplyByH (x : gcmFieldElement) (hx : WF x) : WF (gcmMultiplyByH x) := by
  unfold gcmMultiplyByH
  dsimp only
  have hhigh : (x.high >>> 1) ||| ((x.low <<< 63) % 2 ^ 64) < 2 ^ 64 :=
    Nat.or_lt_two_pow (shiftRight_lt_two_pow 1 hx.2) (Nat.mod_lt _ (by norm_num))
  split
  · exact ⟨Nat.xor_lt_two_pow (shiftRight_lt_two_pow 1 hx.1) (by norm_num), hhigh⟩
  · exact ⟨shiftRight_lt_two_pow 1 hx.1, hhigh⟩

lemma redTable_lt (i : Nat) : redTable i < 2 ^ 16 := by
  rcases Nat.lt_or_ge i 16 with h | h
  · interval_cases i <;> decide
  · rw [redTable, List.getD_eq_default _ _ (by simp [gcmReductionTable]; omega)]
    norm_num

lemma WF_mulShiftStep (z : gcmFieldElement) (hz : WF z) : WF (mulShiftStep z) := by
  unfold mulShiftStep
  dsimp only
  constructor
  · apply Nat.xor_lt_two_pow (shiftRight_lt_two_pow 4 hz.1)
    have h := redTable_lt (z.high &&& 0xf)
    calc redTable (z.high &&& 0xf) <<< 48 = redTable (z.high &&& 0xf) * 2 ^ 48 := by
          rw [Nat.shiftLeft_eq]
      _ < 2 ^ 16 * 2 ^ 48 := by
          exact (Nat.mul_lt_mul_right (by norm_num)).mpr h
      _ = 2 ^ 64 := by norm_num
  · exact Nat.or_lt_two_pow (shiftRight_lt_two_pow 4 hz.2) (Nat.mod_lt _ (by norm_num))

/-! ### The shift-by-4 step at the bit level -/

lemma lowShift4_bit (z : gcmFieldElement) (hz : WF z) (k : Nat) (hk : k < 64) :
    (z.low >>> 4).testBit (63 - k) = if k < 4 then false else bitc z (k - 4) := by
  rw [Nat.testBit_shiftRight]
  by_cases h0 : k < 4
  · rw [if_pos h0]
    exact testBit_ge_low z hz _ (by omega)
  · rw [if_neg h0]
    unfold bitc
    rw [if_pos (by omega : k - 4 < 64), show 4 + (63 - k) = 63 - (k - 4) from by omega]

lemma highShift4_bit (z : gcmFieldElement) (hz : WF z) (k : Nat) (hk1 : 64 ≤ k)
    (hk2 : k < 128) :
    ((z.high >>> 4) ||| ((z.low <<< 60) % 2 ^ 64)).testBit (127 - k) = bitc z (k - 4) := by
  rw [Nat.testBit_or, Nat.testBit_shiftRight, Nat.testBit_mod_two_pow, Nat.testBit_shiftLeft]
  by_cases h68 : k < 68
  · have hfalse : z.high.testBit (4 + (127 - k)) = false :=
      testBit_ge_high z hz _ (by omega)
    rw [hfalse]
    unfold bitc
    rw [if_pos (by omega : k - 4 < 64),
      show 127 - k - 60 = 63 - (k - 4) from by omega]
    have hd1 : (127 - k < 64) := by omega
    have hd2 : (60 ≤ 127 - k) := by omega
    simp [hd1, hd2]
  · unfold bitc
    rw [if_neg (by omega : ¬ k - 4 < 64),
      show 4 + (127 - k) = 127 - (k - 4) from by omega]
    have hd2 : ¬ (60 ≤ 127 - k) := by omega
    simp [hd2]

lemma bitc_mulShiftStep (z : gcmFieldElement) (hz : WF z) (k : Nat) (hk : k < 128) :
    bitc (mulShiftStep z) k =
      xor (if k < 4 then false else bitc z (k - 4))
        (decide (k < 16) && (redTable (z.high &&& 0xf)).testBit (15 - k)) := by
  unfold mulShiftStep
  dsimp only
  unfold bitc
  dsimp only
  by_cases hk64 : k < 64
  · rw [if_pos hk64, Nat.testBit_xor, lowShift4_bit z hz k hk64, Nat.testBit_shiftLeft]
    by_cases h16 : k < 16
    · have hd : (48 ≤ 63 - k) := by omega
      rw [show 63 - k - 48 = 15 - k from by omega]
      simp [hd, h16, bitc]
    · have hd : ¬ (48 ≤ 63 - k) := by omega
      simp [hd, h16, bitc]
  · rw [if_neg hk64, highShift4_bit z hz k (by omega) hk,
      if_neg (by omega : ¬ k < 4)]
    have h16 : ¬ (k < 16) := by omega
    simp [h16, bitc]

lemma gh_three_eq_one : (3 : GH) = 1 := by
  rw [show (3 : GH) = 2 + 1 from by norm_num, gh_two_eq_zero, zero_add]

lemma gh_four_eq_zero : (4 : GH) = 0 := by
  rw [show (4 : GH) = 2 * 2 from by norm_num, gh_two_eq_zero, zero_mul]

lemma sum_range_split (n m : Nat) (h : m ≤ n) (f : Nat → GH) :
    (∑ k ∈ Finset.range n, f k) =
      (∑ k ∈ Finset.range m, f k) + (∑ k ∈ Finset.Ico m n, f k) := by
  rw [Finset.range_eq_Ico, Finset.sum_Ico_consecutive f (Nat.zero_le m) h]

lemma sum_bit_shift (f : Nat → Bool) (d n : Nat) :
    (∑ k ∈ Finset.range (d + n),
      (if (if k < d then false else f (k - d)) then ghRoot ^ k else 0)) =
      ghRoot ^ d * ∑ j ∈ Finset.range n, (if f j then ghRoot ^ j else 0) := by
  rw [sum_range_split (d + n) d (Nat.le_add_right d n)]
  have h1 : (∑ k ∈ Finset.range d,
      (if (if k < d then false else f (k - d)) then ghRoot ^ k else 0)) = 0 := by
    refine Finset.sum_eq_zero (fun k hk => ?_)
    rw [if_pos (Finset.mem_range.mp hk)]
    simp
  rw [h1, zero_add, Finset.sum_Ico_eq_sum_range, show d + n - d = n from by omega,
    Finset.mul_sum]
  refine Finset.sum_congr rfl (fun k _ => ?_)
  rw [if_neg (by omega : ¬ d + k < d), show d + k - d = k from by omega]
  by_cases hb : f k
  · rw [if_pos hb, if_pos hb, pow_add]
  · rw [if_neg hb, if_neg hb, mul_zero]

set_option maxHeartbeats 2000000 in
lemma redTable_poly (n : Nat) (hn : n < 16) :
    (∑ k ∈ Finset.range 16, (if (redTable n).testBit (15 - k) then ghRoot ^ k else 0)) =
      psi n * (ghRoot ^ 7 + ghRoot ^ 2 + ghRoot + 1) := by
  unfold psi
  interval_cases n <;>
    (simp +decide only [Finset.sum_range_succ, Finset.sum_range_zero, pow_zero, zero_add,
      add_zero, if_true, if_false]) <;>
    (first
      | ring1
      | (ring_nf
         simp only [gh_two_eq_zero, gh_three_eq_one, gh_four_eq_zero, mul_zero, mul_one,
           add_zero, zero_add]
         try ring1))

lemma psi_high_nibble (z : gcmFieldElement) :
    psi (z.high &&& 0xf) =
      ∑ j ∈ Finset.range 4, (if bitc z (124 + j) then ghRoot ^ j else 0) := by
  unfold psi
  refine Finset.sum_congr rfl (fun j hj => ?_)
  have hj4 := Finset.mem_range.mp hj
  rw [Nat.testBit_and, show (0xf : Nat) = 2 ^ 4 - 1 from rfl, Nat.testBit_two_pow_sub_one]
  unfold bitc
  rw [if_neg (by omega : ¬ 124 + j < 64), show 127 - (124 + j) = 3 - j from by omega]
  have h34 : (3 - j < 4) := by omega
  simp [h34]

lemma phi_mulShiftStep (z : gcmFieldElement) (hz : WF z) :
    phi (mulShiftStep z) = ghRoot ^ 4 * phi z := by
  unfold phi
  rw [Finset.sum_congr rfl (fun k hk => by
    rw [bitc_mulShiftStep z hz k (Finset.mem_range.mp hk), ite_xor_add]),
    Finset.sum_add_distrib]
  have h1 : (∑ k ∈ Finset.range 128,
      (if (if k < 4 then false else bitc z (k - 4)) then ghRoot ^ k else 0)) =
      ghRoot ^ 4 * ∑ j ∈ Finset.range 124, (if bitc z j then ghRoot ^ j else 0) := by
    rw [show (128 : ℕ) = 4 + 124 from rfl]
    exact sum_bit_shift (fun j => bitc z j) 4 124
  have h2 : (∑ k ∈ Finset.range 128,
      (if (decide (k < 16) && (redTable (z.high &&& 0xf)).testBit (15 - k)) then
        ghRoot ^ k else 0)) =
      psi (z.high &&& 0xf) * (ghRoot ^ 7 + ghRoot ^ 2 + ghRoot + 1) := by
    rw [← redTable_poly (z.high &&& 0xf) (by
      have := Nat.and_le_right (n := z.high) (m := 0xf)
      omega)]
    rw [sum_range_split 128 16 (by norm_num)]
    have hz16 : (∑ k ∈ Finset.Ico 16 128,
        (if (decide (k < 16) && (redTable (z.high &&& 0xf)).testBit (15 - k)) then
          ghRoot ^ k else 0)) = 0 := by
      refine Finset.sum_eq_zero (fun k hk => ?_)
      have h16 := (Finset.mem_Ico.mp hk).1
      simp [show ¬ (k < 16) from by omega]
    rw [hz16, add_zero]
    refine Finset.sum_congr rfl (fun k hk => ?_)
    have hklt := Finset.mem_range.mp hk
    simp [hklt]
  have h3 : psi (z.high &&& 0xf) * (ghRoot ^ 7 + ghRoot ^ 2 + ghRoot + 1) =
      ghRoot ^ 4 * ∑ k ∈ Finset.Ico 124 128, (if bitc z k then ghRoot ^ k else 0) := by
    rw [Finset.sum_Ico_eq_sum_range, show (128 : ℕ) - 124 = 4 from rfl, psi_high_nibble,
      Finset.sum_mul, Finset.mul_sum]
    refine Finset.sum_congr rfl (fun j hj => ?_)
    by_cases hb : bitc z (124 + j)
    · rw [if_pos hb, if_pos hb, ← gh_root_pow_128]
      ring
    · rw [if_neg hb, if_neg hb, zero_mul, mul_zero]
  rw [h1, h2, h3, sum_range_split 128 124 (by norm_num), mul_add]

lemma productTable_spec (e : gcmFieldElement) (he : WF e) (m : Nat) (hm : m < 16) :
    WF (createProductTable e m) ∧ phi (createProductTable e m) = psi m * phi e := by
  have w4 : WF (gcmMultiplyByH e) := WF_gcmMultiplyByH e he
  have p4 : phi (gcmMultiplyByH e) = ghRoot * phi e := phi_gcmMultiplyByH e he
  have w12 : WF (gcmAdd (gcmMultiplyByH e) e) := WF_gcmAdd _ _ w4 he
  have p12 : phi (gcmAdd (gcmMultiplyByH e) e) = (ghRoot + 1) * phi e := by
    rw [phi_gcmAdd, p4]
    ring
  have w2 : WF (gcmMultiplyByH (gcmMultiplyByH e)) := WF_gcmMultiplyByH _ w4
  have p2 : phi (gcmMultiplyByH (gcmMultiplyByH e)) = ghRoot ^ 2 * phi e := by
    rw [phi_gcmMultiplyByH _ w4, p4]
    ring
  have w10 : WF (gcmAdd (gcmMultiplyByH (gcmMultiplyByH e)) e) := WF_gcmAdd _ _ w2 he
  have p10 : phi (gcmAdd (gcmMultiplyByH (gcmMultiplyByH e)) e) = (ghRoot ^ 2 + 1) * phi e := by
    rw [phi_gcmAdd, p2]
    ring
  have w6 : WF (gcmMultiplyByH (gcmAdd (gcmMultiplyByH e) e)) := WF_gcmMultiplyByH _ w12
  have p6 : phi (gcmMultiplyByH (gcmAdd (gcmMultiplyByH e) e)) =
      (ghRoot ^ 2 + ghRoot) * phi e := by
    rw [phi_gcmMultiplyByH _ w12, p12]
    ring
  have w14 : WF (gcmAdd (gcmMultiplyByH (gcmAdd (gcmMultiplyByH e) e)) e) :=
    WF_gcmAdd _ _ w6 he
  have p14 : phi (gcmAdd (gcmMultiplyByH (gcmAdd (gcmMultiplyByH e) e)) e) =
      (ghRoot ^ 2 + ghRoot + 1) * phi e := by
    rw [phi_gcmAdd, p6]
    ring
  have w1 : WF (gcmMultiplyByH (gcmMultiplyByH (gcmMultiplyByH e))) := WF_gcmMultiplyByH _ w2
  have p1 : phi (gcmMultiplyByH (gcmMultiplyByH (gcmMultiplyByH e))) = ghRoot ^ 3 * phi e := by
    rw [phi_gcmMultiplyByH _ w2, p2]
    ring
  have w9 : WF (gcmAdd (gcmMultiplyByH (gcmMultiplyByH (gcmMultiplyByH e))) e) :=
    WF_gcmAdd _ _ w1 he
  have p9 : phi (gcmAdd (gcmMultiplyByH (gcmMultiplyByH (gcmMultiplyByH e))) e) =
      (ghRoot ^ 3 + 1) * phi e := by
    rw [phi_gcmAdd, p1]
    ring
  have w5 : WF (gcmMultiplyByH (gcmAdd (gcmMultiplyByH (gcmMultiplyByH e)) e)) :=
    WF_gcmMultiplyByH _ w10
  have p5 : phi (gcmMultiplyByH (gcmAdd (gcmMultiplyByH (gcmMultiplyByH e)) e)) =
      (ghRoot ^ 3 + ghRoot) * phi e := by
    rw [phi_gcmMultiplyByH _ w10, p10]
    ring
  have w13 : WF (gcmAdd (gcmMultiplyByH (gcmAdd (gcmMultiplyByH (gcmMultiplyByH e)) e)) e) :=
    WF_gcmAdd _ _ w5 he
  have p13 : phi (gcmAdd (gcmMultiplyByH (gcmAdd (gcmMultiplyByH (gcmMultiplyByH e)) e)) e) =
      (ghRoot ^ 3 + ghRoot + 1) * phi e := by
    rw [phi_gcmAdd, p5]
    ring
  have w3 : WF (gcmMultiplyByH (gcmMultiplyByH (gcmAdd (gcmMultiplyByH e) e))) :=
    WF_gcmMultiplyByH _ w6
  have p3 : phi (gcmMultiplyByH (gcmMultiplyByH (gcmAdd (gcmMultiplyByH e) e))) =
      (ghRoot ^ 3 + ghRoot ^ 2) * phi e := by
    rw [phi_gcmMultiplyByH _ w6, p6]
    ring
  have w11 : WF (gcmAdd (gcmMultiplyByH (gcmMultiplyByH (gcmAdd (gcmMultiplyByH e) e))) e) :=
    WF_gcmAdd _ _ w3 he
  have p11 : phi (gcmAdd (gcmMultiplyByH (gcmMultiplyByH (gcmAdd (gcmMultiplyByH e) e))) e) =
      (ghRoot ^ 3 + ghRoot ^ 2 + 1) * phi e := by
    rw [phi_gcmAdd, p3]
    ring
  have w7 : WF (gcmMultiplyByH (gcmAdd (gcmMultiplyByH (gcmAdd (gcmMultiplyByH e) e)) e)) :=
    WF_gcmMultiplyByH _ w14
  have p7 : phi (gcmMultiplyByH (gcmAdd (gcmMultiplyByH (gcmAdd (gcmMultiplyByH e) e)) e)) =
      (ghRoot ^ 3 + ghRoot ^ 2 + ghRoot) * phi e := by
    rw [phi_gcmMultiplyByH _ w14, p14]
    ring
  have w15 : WF (gcmAdd (gcmMultiplyByH (gcmAdd (gcmMultiplyByH (gcmAdd
      (gcmMultiplyByH e) e)) e)) e) := WF_gcmAdd _ _ w7 he
  have p15 : phi (gcmAdd (gcmMultiplyByH (gcmAdd (gcmMultiplyByH (gcmAdd
      (gcmMultiplyByH e) e)) e)) e) = (ghRoot ^ 3 + ghRoot ^ 2 + ghRoot + 1) * phi e := by
    rw [phi_gcmAdd, p7]
    ring
  interval_cases m
  · refine ⟨WF_feZero, ?_⟩
    rw [show createProductTable e 0 = feZero from rfl, phi_feZero]
    simp +decide only [psi, Finset.sum_range_succ, Finset.sum_range_zero,
      if_true, if_false, pow_zero, add_zero, zero_add]
    try ring
  · refine ⟨w1, ?_⟩
    rw [show createProductTable e 1 = gcmMultiplyByH (gcmMultiplyByH (gcmMultiplyByH e)) from rfl, p1]
    simp +decide only [psi, Finset.sum_range_succ, Finset.sum_range_zero,
      if_true, if_false, pow_zero, add_zero, zero_add]
    try ring
  · refine ⟨w2, ?_⟩
    rw [show createProductTable e 2 = gcmMultiplyByH (gcmMultiplyByH e) from rfl, p2]
    simp +decide only [psi, Finset.sum_range_succ, Finset.sum_range_zero,
      if_true, if_false, pow_zero, add_zero, zero_add]
    try ring
  · refine ⟨w3, ?_⟩
    rw [show createProductTable e 3 = gcmMultiplyByH (gcmMultiplyByH (gcmAdd (gcmMultiplyByH e) e)) from rfl, p3]
    simp +decide only [psi, Finset.sum_range_succ, Finset.sum_range_zero,
      if_true, if_false, pow_zero, add_zero, zero_add]
    try ring
  · refine ⟨w4, ?_⟩
    rw [show createProductTable e 4 = gcmMultiplyByH e from rfl, p4]
    simp +decide only [psi, Finset.sum_range_succ, Finset.sum_range_zero,
      if_true, if_false, pow_zero, add_zero, zero_add]
    try ring
  · refine ⟨w5, ?_⟩
    rw [show createProductTable e 5 = gcmMultiplyByH (gcmAdd (gcmMultiplyByH (gcmMultiplyByH e)) e) from rfl, p5]
    simp +decide only [psi, Finset.sum_range_succ, Finset.sum_range_zero,
      if_true, if_false, pow_zero, add_zero, zero_add]
    try ring
  · refine ⟨w6, ?_⟩
    rw [show createProductTable e 6 = gcmMultiplyByH (gcmAdd (gcmMultiplyByH e) e) from rfl, p6]
    simp +decide only [psi, Finset.sum_range_succ, Finset.sum_range_zero,
      if_true, if_false, pow_zero, add_zero, zero_add]
    try ring
  · refine ⟨w7, ?_⟩
    rw [show createProductTable e 7 = gcmMultiplyByH (gcmAdd (gcmMultiplyByH (gcmAdd (gcmMultiplyByH e) e)) e) from rfl, p7]
    simp +decide only [psi, Finset.sum_range_succ, Finset.sum_range_zero,
      if_true, if_false, pow_zero, add_zero, zero_add]
    try ring
  · refine ⟨he, ?_⟩
    rw [show createProductTable e 8 = e from rfl]
    simp +decide only [psi, Finset.sum_range_succ, Finset.sum_range_zero,
      if_true, if_false, pow_zero, add_zero, zero_add]
    try ring
  · refine ⟨w9, ?_⟩
    rw [show createProductTable e 9 = gcmAdd (gcmMultiplyByH (gcmMultiplyByH (gcmMultiplyByH e))) e from rfl, p9]
    simp +decide only [psi, Finset.sum_range_succ, Finset.sum_range_zero,
      if_true, if_false, pow_zero, add_zero, zero_add]
    try ring
  · refine ⟨w10, ?_⟩
    rw [show createProductTable e 10 = gcmAdd (gcmMultiplyByH (gcmMultiplyByH e)) e from rfl, p10]
    simp +decide only [psi, Finset.sum_range_succ, Finset.sum_range_zero,
      if_true, if_false, pow_zero, add_zero, zero_add]
    try ring
  · refine ⟨w11, ?_⟩
    rw [show createProductTable e 11 = gcmAdd (gcmMultiplyByH (gcmMultiplyByH (gcmAdd (gcmMultiplyByH e) e))) e from rfl, p11]
    simp +decide only [psi, Finset.sum_range_succ, Finset.sum_range_zero,
      if_true, if_false, pow_zero, add_zero, zero_add]
    try ring
  · refine ⟨w12, ?_⟩
    rw [show createProductTable e 12 = gcmAdd (gcmMultiplyByH e) e from rfl, p12]
    simp +decide only [psi, Finset.sum_range_succ, Finset.sum_range_zero,
      if_true, if_false, pow_zero, add_zero, zero_add]
    try ring
  · refine ⟨w13, ?_⟩
    rw [show createProductTable e 13 = gcmAdd (gcmMultiplyByH (gcmAdd (gcmMultiplyByH (gcmMultiplyByH e)) e)) e from rfl, p13]
    simp +decide only [psi, Finset.sum_range_succ, Finset.sum_range_zero,
      if_true, if_false, pow_zero, add_zero, zero_add]
    try ring
  · refine ⟨w14, ?_⟩
    rw [show createProductTable e 14 = gcmAdd (gcmMultiplyByH (gcmAdd (gcmMultiplyByH e) e)) e from rfl, p14]
    simp +decide only [psi, Finset.sum_range_succ, Finset.sum_range_zero,
      if_true, if_false, pow_zero, add_zero, zero_add]
    try ring
  · refine ⟨w15, ?_⟩
    rw [show createProductTable e 15 = gcmAdd (gcmMultiplyByH (gcmAdd (gcmMultiplyByH (gcmAdd (gcmMultiplyByH e) e)) e)) e from rfl, p15]
    simp +decide only [psi, Finset.sum_range_succ, Finset.sum_range_zero,
      if_true, if_false, pow_zero, add_zero, zero_add]
    try ring

/-! ### The multiplication fold -/

lemma mulFold_spec (e : gcmFieldElement) (he : WF e) :
    ∀ (ms : List Nat), (∀ m ∈ ms, m < 16) → ∀ z : gcmFieldElement, WF z →
      WF (ms.foldl (fun z m => gcmAdd (mulShiftStep z) (createProductTable e m)) z) ∧
      phi (ms.foldl (fun z m => gcmAdd (mulShiftStep z) (createProductTable e m)) z) =
        ghRoot ^ (4 * ms.length) * phi z +
          ∑ k ∈ Finset.range ms.length,
            ghRoot ^ (4 * (ms.length - 1 - k)) * psi (ms.getD k 0) * phi e := by
  intro ms
  induction ms with
  | nil =>
    intro _ z hz
    refine ⟨hz, ?_⟩
    simp
  | cons m ms ih =>
    intro hms z hz
    have hm : m < 16 := hms m (List.mem_cons_self m ms)
    have hstep_wf : WF (gcmAdd (mulShiftStep z) (createProductTable e m)) :=
      WF_gcmAdd _ _ (WF_mulShiftStep z hz) (productTable_spec e he m hm).1
    have hstep_phi : phi (gcmAdd (mulShiftStep z) (createProductTable e m)) =
        ghRoot ^ 4 * phi z + psi m * phi e := by
      rw [phi_gcmAdd, phi_mulShiftStep z hz, (productTable_spec e he m hm).2]
    have hms2 : ∀ x ∈ ms, x < 16 := fun x hx => hms x (List.mem_cons_of_mem m hx)
    obtain ⟨ihWF, ihphi⟩ := ih hms2 (gcmAdd (mulShiftStep z) (createProductTable e m)) hstep_wf
    simp only [List.foldl_cons]
    refine ⟨ihWF, ?_⟩
    rw [ihphi, hstep_phi]
    simp only [List.length_cons]
    rw [Finset.sum_range_succ']
    simp only [List.getD_cons_zero, List.getD_cons_succ]
    have hsum : (∑ x ∈ Finset.range ms.length,
        ghRoot ^ (4 * (ms.length + 1 - 1 - (x + 1))) * psi (ms.getD x 0) * phi e) =
        ∑ x ∈ Finset.range ms.length,
          ghRoot ^ (4 * (ms.length - 1 - x)) * psi (ms.getD x 0) * phi e := by
      refine Finset.sum_congr rfl (fun x hx => ?_)
      rw [show ms.length + 1 - 1 - (x + 1) = ms.length - 1 - x from by omega]
    rw [hsum, show ms.length + 1 - 1 - 0 = ms.length from by omega,
      show 4 * (ms.length + 1) = 4 * ms.length + 4 from by ring, pow_add]
    ring

lemma sum_range_chunk (f : Nat → GH) (b : Nat) :
    ∀ n, (∑ x ∈ Finset.range (n * b), f x) =
      ∑ t ∈ Finset.range n, ∑ i ∈ Finset.range b, f (b * t + i) := by
  intro n
  induction n with
  | zero => simp
  | succ n ih =>
    rw [show (n + 1) * b = n * b + b from by ring,
      sum_range_split (n * b + b) (n * b) (Nat.le_add_right _ _), ih,
      Finset.sum_Ico_eq_sum_range, show n * b + b - n * b = b from by omega,
      Finset.sum_range_succ]
    congr 1
    refine Finset.sum_congr rfl (fun i _ => ?_)
    rw [show n * b + i = b * n + i from by ring]

lemma nibbleList_getD (w k : Nat) (hk : k < 16) :
    (nibbleList w).getD k 0 = (w >>> (4 * k)) &&& 0xf := by
  unfold nibbleList
  rw [List.getD_eq_getElem?_getD]
  simp [List.getElem?_map, List.getElem?_range, hk]

lemma nibbleList_length (w : Nat) : (nibbleList w).length = 16 := by
  unfold nibbleList
  simp

lemma nibbleList_lt (w : Nat) : ∀ m ∈ nibbleList w, m < 16 := by
  intro m hm
  unfold nibbleList at hm
  obtain ⟨j, hj, hjm⟩ := List.mem_map.mp hm
  have := Nat.and_le_right (n := w >>> (4 * j)) (m := 0xf)
  omega

lemma psi_and_formula (w s : Nat) :
    psi ((w >>> s) &&& 0xf) =
      ∑ i ∈ Finset.range 4, (if w.testBit (s + (3 - i)) then ghRoot ^ i else 0) := by
  unfold psi
  refine Finset.sum_congr rfl (fun i hi => ?_)
  rw [Nat.testBit_and, show (0xf : Nat) = 2 ^ 4 - 1 from rfl, Nat.testBit_two_pow_sub_one,
    Nat.testBit_shiftRight]
  have h34 : 3 - i < 4 := by omega
  simp [h34]

lemma word_nibble_sum (w : Nat) :
    (∑ k ∈ Finset.range 16, ghRoot ^ (4 * (15 - k)) * psi ((w >>> (4 * k)) &&& 0xf)) =
      ∑ j ∈ Finset.range 64, (if w.testBit (63 - j) then ghRoot ^ j else 0) := by
  have h1 : (∑ k ∈ Finset.range 16, ghRoot ^ (4 * (15 - k)) * psi ((w >>> (4 * k)) &&& 0xf)) =
      ∑ t ∈ Finset.range 16, ghRoot ^ (4 * t) * psi ((w >>> (4 * (15 - t))) &&& 0xf) := by
    rw [← Finset.sum_range_reflect
      (fun t => ghRoot ^ (4 * t) * psi ((w >>> (4 * (15 - t))) &&& 0xf)) 16]
    refine Finset.sum_congr rfl (fun k hk => ?_)
    have hk16 := Finset.mem_range.mp hk
    rw [show 16 - 1 - k = 15 - k from by omega, show 15 - (15 - k) = k from by omega]
  rw [h1, show (64 : ℕ) = 16 * 4 from rfl, sum_range_chunk]
  refine Finset.sum_congr rfl (fun t ht => ?_)
  have ht16 := Finset.mem_range.mp ht
  rw [psi_and_formula, Finset.mul_sum]
  refine Finset.sum_congr rfl (fun i hi => ?_)
  have hi4 := Finset.mem_range.mp hi
  rw [mul_ite, mul_zero, ← pow_add,
    show 4 * (15 - t) + (3 - i) = 63 - (4 * t + i) from by omega]

lemma phi_split (y : gcmFieldElement) :
    phi y = (∑ j ∈ Finset.range 64, (if y.low.testBit (63 - j) then ghRoot ^ j else 0)) +
      ghRoot ^ 64 * ∑ j ∈ Finset.range 64, (if y.high.testBit (63 - j) then ghRoot ^ j else 0) := by
  unfold phi
  rw [sum_range_split 128 64 (by norm_num)]
  have h1 : (∑ k ∈ Finset.range 64, (if bitc y k then ghRoot ^ k else 0)) =
      ∑ j ∈ Finset.range 64, (if y.low.testBit (63 - j) then ghRoot ^ j else 0) := by
    refine Finset.sum_congr rfl (fun k hk => ?_)
    have hk64 := Finset.mem_range.mp hk
    unfold bitc
    rw [if_pos hk64]
  have h2 : (∑ k ∈ Finset.Ico 64 128, (if bitc y k then ghRoot ^ k else 0)) =
      ghRoot ^ 64 * ∑ j ∈ Finset.range 64, (if y.high.testBit (63 - j) then ghRoot ^ j else 0) := by
    rw [Finset.sum_Ico_eq_sum_range, show (128 : ℕ) - 64 = 64 from rfl, Finset.mul_sum]
    refine Finset.sum_congr rfl (fun k hk => ?_)
    have hk64 := Finset.mem_range.mp hk
    rw [mul_ite, mul_zero, ← pow_add]
    unfold bitc
    rw [if_neg (by omega : ¬ 64 + k < 64), show 127 - (64 + k) = 63 - k from by omega]
  rw [h1, h2]

lemma phi_Mul (e y : gcmFieldElement) (he : WF e) :
    WF (Mul e y) ∧ phi (Mul e y) = phi y * phi e := by
  have hms : ∀ m ∈ nibbleList y.high ++ nibbleList y.low, m < 16 := by
    intro m hm
    rcases List.mem_append.mp hm with h | h
    · exact nibbleList_lt _ m h
    · exact nibbleList_lt _ m h
  obtain ⟨hWF, hphi⟩ :=
    mulFold_spec e he (nibbleList y.high ++ nibbleList y.low) hms feZero WF_feZero
  have hlen : (nibbleList y.high ++ nibbleList y.low).length = 32 := by
    rw [List.length_append, nibbleList_length, nibbleList_length]
  rw [hlen] at hphi
  unfold Mul
  dsimp only
  refine ⟨hWF, ?_⟩
  rw [hphi, phi_feZero, mul_zero, zero_add, ← Finset.sum_mul]
  have hhigh : (∑ k ∈ Finset.range 16,
      ghRoot ^ (4 * (32 - 1 - k)) * psi ((nibbleList y.high ++ nibbleList y.low).getD k 0)) =
      ghRoot ^ 64 * ∑ k ∈ Finset.range 16,
        ghRoot ^ (4 * (15 - k)) * psi ((y.high >>> (4 * k)) &&& 0xf) := by
    rw [Finset.mul_sum]
    refine Finset.sum_congr rfl (fun k hk => ?_)
    have hk16 := Finset.mem_range.mp hk
    rw [List.getD_append _ _ _ _ (by rw [nibbleList_length]; omega),
      nibbleList_getD _ _ hk16, ← mul_assoc, ← pow_add,
      show 4 * (32 - 1 - k) = 64 + 4 * (15 - k) from by omega]
  have hlow : (∑ k ∈ Finset.Ico 16 32,
      ghRoot ^ (4 * (32 - 1 - k)) * psi ((nibbleList y.high ++ nibbleList y.low).getD k 0)) =
      ∑ k ∈ Finset.range 16,
        ghRoot ^ (4 * (15 - k)) * psi ((y.low >>> (4 * k)) &&& 0xf) := by
    rw [Finset.sum_Ico_eq_sum_range, show (32 : ℕ) - 16 = 16 from rfl]
    refine Finset.sum_congr rfl (fun k hk => ?_)
    have hk16 := Finset.mem_range.mp hk
    rw [List.getD_append_right _ _ _ _ (by rw [nibbleList_length]; omega),
      nibbleList_length, show 16 + k - 16 = k from by omega, nibbleList_getD _ _ hk16,
      show 4 * (32 - 1 - (16 + k)) = 4 * (15 - k) from by omega]
  rw [sum_range_split 32 16 (by norm_num), hhigh, hlow, word_nibble_sum, word_nibble_sum,
    phi_split y]
  ring

/-! ### Injectivity of phi on well-formed elements -/

lemma ghPow_linearIndependent :
    LinearIndependent (ZMod 2) (fun i : Fin 128 => ghRoot ^ (i : ℕ)) := by
  have hli := (AdjoinRoot.powerBasis ghPoly_ne_zero).basis.linearIndependent
  have hdim : (AdjoinRoot.powerBasis ghPoly_ne_zero).dim = 128 :=
    (AdjoinRoot.powerBasis_dim ghPoly_ne_zero).trans ghPoly_natDegree
  have hcomp := hli.comp (finCongr hdim.symm) (finCongr hdim.symm).injective
  have hfun : ((AdjoinRoot.powerBasis ghPoly_ne_zero).basis ∘ (finCongr hdim.symm)) =
      fun i : Fin 128 => ghRoot ^ (i : ℕ) := by
    funext i
    simp only [Function.comp_apply]
    rw [(AdjoinRoot.powerBasis ghPoly_ne_zero).basis_eq_pow, AdjoinRoot.powerBasis_gen]
    simp [ghRoot]
  rw [hfun] at hcomp
  exact hcomp

lemma phi_as_sum (z : gcmFieldElement) :
    phi z = ∑ i : Fin 128, (if bitc z (i : ℕ) then (1 : ZMod 2) else 0) • ghRoot ^ (i : ℕ) := by
  rw [Fin.sum_univ_eq_sum_range
    (fun k => (if bitc z k then (1 : ZMod 2) else 0) • ghRoot ^ k) 128]
  unfold phi
  refine Finset.sum_congr rfl (fun k _ => ?_)
  by_cases hb : bitc z k
  · rw [if_pos hb, if_pos hb, one_smul]
  · rw [if_neg hb, if_neg hb, zero_smul]

lemma bitc_eq_of_phi_eq (z1 z2 : gcmFieldElement) (h : phi z1 = phi z2) :
    ∀ k, k < 128 → bitc z1 k = bitc z2 k := by
  intro k hk
  have hsub : (∑ i : Fin 128, ((if bitc z1 (i : ℕ) then (1 : ZMod 2) else 0) -
      (if bitc z2 (i : ℕ) then (1 : ZMod 2) else 0)) • ghRoot ^ (i : ℕ)) = 0 := by
    have hx : ∀ i : Fin 128, ((if bitc z1 (i : ℕ) then (1 : ZMod 2) else 0) -
        (if bitc z2 (i : ℕ) then (1 : ZMod 2) else 0)) • ghRoot ^ (i : ℕ) =
        (if bitc z1 (i : ℕ) then (1 : ZMod 2) else 0) • ghRoot ^ (i : ℕ) -
        (if bitc z2 (i : ℕ) then (1 : ZMod 2) else 0) • ghRoot ^ (i : ℕ) :=
      fun i => sub_smul _ _ _
    simp only [hx]
    rw [Finset.sum_sub_distrib, ← phi_as_sum, ← phi_as_sum, h, sub_self]
  have hg := Fintype.linearIndependent_iff.mp ghPow_linearIndependent _ hsub ⟨k, hk⟩
  dsimp only at hg
  rw [sub_eq_zero] at hg
  cases hb1 : bitc z1 k <;> cases hb2 : bitc z2 k
  · rfl
  · rw [hb1, hb2] at hg
    exact absurd hg (by decide)
  · rw [hb1, hb2] at hg
    exact absurd hg (by decide)
  · rfl

lemma eq_of_bitc_eq (z1 z2 : gcmFieldElement) (h1 : WF z1) (h2 : WF z2)
    (h : ∀ k, k < 128 → bitc z1 k = bitc z2 k) : z1 = z2 := by
  have hlow : z1.low = z2.low := by
    apply Nat.eq_of_testBit_eq
    intro j
    by_cases hj : j < 64
    · have hb := h (63 - j) (by omega)
      unfold bitc at hb
      rw [show 63 - (63 - j) = j from by omega] at hb
      rw [if_pos (by omega : 63 - j < 64), if_pos (by omega : 63 - j < 64)] at hb
      exact hb
    · rw [testBit_ge_low z1 h1 j (by omega), testBit_ge_low z2 h2 j (by omega)]
  have hhigh : z1.high = z2.high := by
    apply Nat.eq_of_testBit_eq
    intro j
    by_cases hj : j < 64
    · have hb := h (127 - j) (by omega)
      unfold bitc at hb
      rw [show 127 - (127 - j) = j from by omega] at hb
      rw [if_neg (by omega : ¬ 127 - j < 64), if_neg (by omega : ¬ 127 - j < 64)] at hb
      exact hb
    · rw [testBit_ge_high z1 h1 j (by omega), testBit_ge_high z2 h2 j (by omega)]
  cases z1
  cases z2
  dsimp only at hlow hhigh
  rw [hlow, hhigh]

lemma phi_inj (z1 z2 : gcmFieldElement) (h1 : WF z1) (h2 : WF z2)
    (h : phi z1 = phi z2) : z1 = z2 :=
  eq_of_bitc_eq z1 z2 h1 h2 (bitc_eq_of_phi_eq z1 z2 h)

/-- C4: GF(2^128) field laws of the implemented operations: for all
well-formed elements x, y, z, `add(x, zero) = x`, `add(x, x) = zero`,
`mul(x, one) = x` with one the element whose x^0 coefficient is set
(low = 1 << 63), `mul(x, zero) = zero`, `mul` is commutative, and `mul`
is associative, where `mul` is the table-driven shift-and-add reduction
modulo the GHASH polynomial.  Proved by interpreting elements as members
of GF(2)[x]/(1 + x + x^2 + x^7 + x^128) through `phi`, showing
`phi (Mul e y) = phi y * phi e`, and using that `phi` is injective on
well-formed elements. -/
theorem c4_field_laws (x y z : gcmFieldElement) (hx : WF x) (hy : WF y) (hz : WF z) :
    gcmAdd x feZero = x ∧
    gcmAdd x x = feZero ∧
    Mul x feOne = x ∧
    Mul x feZero = feZero ∧
    Mul x y = Mul y x ∧
    Mul (Mul x y) z = Mul x (Mul y z) := by
  refine ⟨?_, ?_, ?_, ?_, ?_, ?_⟩
  · cases x
    simp [gcmAdd, feZero]
  · cases x
    simp [gcmAdd, feZero]
  · refine phi_inj _ _ (phi_Mul x feOne hx).1 hx ?_
    rw [(phi_Mul x feOne hx).2, phi_feOne, one_mul]
  · refine phi_inj _ _ (phi_Mul x feZero hx).1 WF_feZero ?_
    rw [(phi_Mul x feZero hx).2, phi_feZero, zero_mul]
  · refine phi_inj _ _ (phi_Mul x y hx).1 (phi_Mul y x hy).1 ?_
    rw [(phi_Mul x y hx).2, (phi_Mul y x hy).2, mul_comm]
  · have hxy := phi_Mul x y hx
    have hyz := phi_Mul y z hy
    refine phi_inj _ _ (phi_Mul (Mul x y) z hxy.1).1 (phi_Mul x (Mul y z) hx).1 ?_
    rw [(phi_Mul (Mul x y) z hxy.1).2, (phi_Mul x (Mul y z) hx).2, hxy.2, hyz.2]
    ring

/-- Witness for C4 at concrete well-formed elements. -/
theorem c4_field_laws_witness :
    gcmAdd ⟨3, 5⟩ feZero = (⟨3, 5⟩ : gcmFieldElement) ∧
    gcmAdd ⟨3, 5⟩ ⟨3, 5⟩ = feZero ∧
    Mul ⟨3, 5⟩ feOne = (⟨3, 5⟩ : gcmFieldElement) ∧
    Mul ⟨3, 5⟩ feZero = feZero ∧
    Mul ⟨3, 5⟩ ⟨7, 9⟩ = Mul ⟨7, 9⟩ ⟨3, 5⟩ ∧
    Mul (Mul ⟨3, 5⟩ ⟨7, 9⟩) ⟨2, 11⟩ = Mul ⟨3, 5⟩ (Mul ⟨7, 9⟩ ⟨2, 11⟩) :=
  c4_field_laws ⟨3, 5⟩ ⟨7, 9⟩ ⟨2, 11⟩ (by decide) (by decide) (by decide)

end VPIR
